import Mathlib

/-!
Verification development for the IREE GPU dialect transformation layer:
the MultiMma operation (verification, iteration-bounds derivation,
unrolling with accumulator memoization, unit-dimension folding), the
ShuffleTensor lowering, and scf.forall worker-loop fusion, shallowly
embedded from `IREEGPUOps.cpp` and `Transforms.cpp`.
-/

namespace IreeGpu

/-- Per-dimension iterator kind of a MultiMma operation
(`utils::IteratorType`). -/
inductive IterKind where
  | parallel
  | reduction
deriving DecidableEq, Repr

/-- Affine expressions as they occur in MultiMma indexing maps.  All maps
accepted by the verifier are projected permutations, whose results are
plain dimension expressions; `cst` stands for any non-dimension expression
(it makes `isProjectedPermutation` falsifiable, as in MLIR). -/
inductive AffineExpr where
  | dim (pos : Nat)
  | cst (v : Int)
deriving DecidableEq, Repr

/-- An affine map: `numDims` inputs, `numSymbols` symbols and an ordered
list of result expressions (`mlir::AffineMap`). -/
structure AffineMap where
  numDims : Nat
  numSymbols : Nat
  results : List AffineExpr
deriving DecidableEq, Repr

/-- The empty affine map `AffineMap::get(context)`: zero inputs, zero
symbols, zero results. -/
def emptyAffineMap : AffineMap := ⟨0, 0, []⟩

/-- All elements of a list of affine expressions are pairwise distinct. -/
def distinctExprs : List AffineExpr → Bool
  | [] => true
  | e :: rest => !(rest.contains e) && distinctExprs rest

/-- `e` is a dimension expression with position below `n`. -/
def AffineExpr.isDimBelow (n : Nat) : AffineExpr → Bool
  | .dim p => p < n
  | .cst _ => false

/-- `AffineMap::isProjectedPermutation` (with `allowZeroInResults` at its
default `false`): no symbols, and the results are pairwise-distinct
dimension expressions of the map. -/
def AffineMap.isProjectedPermutation (m : AffineMap) : Bool :=
  m.numSymbols == 0 && m.results.all (AffineExpr.isDimBelow m.numDims) &&
    distinctExprs m.results

/-- First index of `target` in a result list, `none` when absent.  This is
`getResultIndex` from `IREEGPUOps.cpp` with its `-1` sentinel made an
`Option`. -/
def idxOfExpr : List AffineExpr → AffineExpr → Option Nat
  | [], _ => none
  | e :: rest, t => if e = t then some 0 else (idxOfExpr rest t).map (· + 1)

/-- A dimension size of a shaped type: a static extent or the dynamic
sentinel (`ShapedType::kDynamic`). -/
inductive MSize where
  | st (v : Int)
  | dyn
deriving DecidableEq, Repr

/-- The `ShapedType::kDynamic` sentinel value, for arithmetic that reads
sizes as raw `int64_t` values. -/
def kDynamic : Int := -9223372036854775808

/-- Read a size as the raw `int64_t` stored by MLIR. -/
def MSize.toInt : MSize → Int
  | .st v => v
  | .dyn => kDynamic

/-- `ShapedType::isDynamic` on one size. -/
def MSize.isDynamic : MSize → Bool
  | .st _ => false
  | .dyn => true

/-- A shaped (vector or ranked-tensor) type: shape, element type
(element types are abstract identifiers) and whether the container is a
tensor (`true`) or a vector (`false`). -/
structure ShapedTy where
  shape : List MSize
  elem : Nat
  tensor : Bool
deriving DecidableEq, Repr

/-- Rank of a shaped type. -/
def ShapedTy.rank (t : ShapedTy) : Nat := t.shape.length

/-- The intrinsic-kind descriptor (`MmaInterfaceAttr`): the element type
expected for each of the A/B/C operand roles
(`getABCElementTypes`). -/
structure MmaKind where
  aElem : Nat
  bElem : Nat
  cElem : Nat
deriving DecidableEq, Repr

/-- The `iree_gpu.multi_mma` operation: three operand types, the indexing
maps and iterator kinds, and the intrinsic kind.  Its result type equals
the accumulator type (both `build` overloads add `acc.getType()` as the
result type). -/
structure MultiMmaOp where
  lhsTy : ShapedTy
  rhsTy : ShapedTy
  accTy : ShapedTy
  indexingMaps : List AffineMap
  iteratorTypes : List IterKind
  kind : MmaKind
deriving DecidableEq, Repr

/-- Result type of a MultiMmaOp; `build` sets it to the accumulator's
type. -/
def MultiMmaOp.getResultType (op : MultiMmaOp) : ShapedTy := op.accTy

/-- `hasTensorSemantics`: the operands are tensors rather than vectors. -/
def MultiMmaOp.hasTensorSemantics (op : MultiMmaOp) : Bool := op.accTy.tensor

/-- Indexing map of operand `i`, defaulting to the empty map when absent
(the C++ array accesses are only reached once three maps are known to be
present). -/
def MultiMmaOp.mapOf (op : MultiMmaOp) (i : Nat) : AffineMap :=
  op.indexingMaps.getD i emptyAffineMap

/-- Recursion of `MultiMmaOp::getIterationBounds` over the iterator kinds:
for iterator position `i`, a reduction bound is read from the lhs shape at
the position of dimension `i` among the lhs map results, a parallel bound
from the result shape at the position of dimension `i` among the
accumulator map results.  A failed lookup is the C++ `assert(dimIndex >= 0)`
firing, modelled as `none`. -/
def boundsOne (lhsShape resShape : List MSize) (m0 m2 : AffineMap)
    (i : Nat) : IterKind → Option MSize
  | .reduction => (idxOfExpr m0.results (.dim i)).map
      (fun p => lhsShape.getD p (.st 0))
  | .parallel => (idxOfExpr m2.results (.dim i)).map
      (fun p => resShape.getD p (.st 0))

/-- See `boundsOne`; walks the iterator kinds accumulating bounds, failing
as soon as one lookup fails. -/
def boundsGo (lhsShape resShape : List MSize) (m0 m2 : AffineMap) :
    Nat → List IterKind → Option (List MSize)
  | _, [] => some []
  | i, it :: rest =>
    match boundsOne lhsShape resShape m0 m2 i it,
        boundsGo lhsShape resShape m0 m2 (i + 1) rest with
    | some b, some bs => some (b :: bs)
    | _, _ => none

/-- `MultiMmaOp::getIterationBounds`. -/
def MultiMmaOp.getIterationBounds (op : MultiMmaOp) : Option (List MSize) :=
  boundsGo op.lhsTy.shape op.getResultType.shape (op.mapOf 0) (op.mapOf 2)
    0 op.iteratorTypes

/-- `MultiMmaOp::getShapeForUnroll` simply wraps the iteration bounds. -/
def MultiMmaOp.getShapeForUnroll (op : MultiMmaOp) : Option (List MSize) :=
  op.getIterationBounds

/-- Dimension `d` appears among the results of map `m`. -/
def mapRefersTo (m : AffineMap) (d : Nat) : Bool :=
  m.results.contains (.dim d)

/-- Modelled from the spec: `linalg::inferContractionDims` is not part of
the given sources (it lives in the linalg interface library); the spec
describes it as partitioning the iteration dimensions into batch/M/N/K
roles consistently, with failure signalling a malformed contraction.
Membership patterns over (lhs, rhs, acc): batch = all three, M = lhs and
acc, N = rhs and acc, K = lhs and rhs; the inference succeeds when exactly
three maps are given and every dimension falls into one of the four
roles. -/
def inferContractionDims (maps : List AffineMap) : Bool :=
  match maps with
  | [mA, mB, mC] =>
    (List.range mA.numDims).all fun d =>
      let a := mapRefersTo mA d
      let b := mapRefersTo mB d
      let c := mapRefersTo mC d
      (a && b && c) || (a && !b && c) || (!a && b && c) || (a && b && !c)
  | _ => false

/-- A named diagnostic check: succeeds exactly when the property holds
(mirrors the early-return `emitOpError` style of the C++ verifier). -/
def check (p : Prop) [Decidable p] (msg : String) : Except String Unit :=
  if p then .ok () else .error msg

/-- Sequencing of two fallible checks: the first error wins. -/
def seqE (a b : Except String Unit) : Except String Unit :=
  match a with
  | .ok _ => b
  | .error e => .error e

/-- The per-map portion of `MultiMmaOp::verify`: no symbols, input count
equals the iterator count, strictly fewer results than the operand rank,
projected permutation, and no dynamic trailing (inner) operand
dimension. -/
def checkMapOperand (numIterators : Nat) (m : AffineMap) (t : ShapedTy) :
    Except String Unit :=
  seqE (check (m.numSymbols = 0) "expected indexing map to have no symbols")
  (seqE (check (m.numDims = numIterators)
    "expected indexing map to have the iterator count as inputs")
  (seqE (check (m.results.length < t.rank)
    "expected indexing map to have fewer outputs than the operand rank")
  (seqE (check (m.isProjectedPermutation = true)
    "expected indexing map to be a projected permutation of its inputs")
  (check (∀ s ∈ t.shape.drop m.results.length, s.isDynamic = false)
    "Unexpected dynamic inner dim for operand"))))

/-- The shape check of `MultiMmaOp::verify`: walking the truncating zip of
the map results with the operand shape, each size must equal the bound at
that dimension (a non-dimension result would trip the C++
`cast<AffineDimExpr>`, modelled as failure; it is unreachable once the map
is a projected permutation). -/
def operandShapeMatches (bounds : List MSize) :
    List AffineExpr → List MSize → Bool
  | [], _ => true
  | _ :: _, [] => true
  | e :: es, s :: ss =>
    (match e with
     | .dim p => s == bounds.getD p (.st 0)
     | .cst _ => false) && operandShapeMatches bounds es ss

/-- `MultiMmaOp::verify`, with each `emitOpError` early return becoming an
`Except.error`.  The `getIterationBounds` call inside `verify` can only
trip its assertion when a bound lookup fails; that abort is modelled as a
verification error. -/
def MultiMmaOp.verify (op : MultiMmaOp) : Except String Unit :=
  match op.indexingMaps with
  | [m0, m1, m2] =>
    seqE (checkMapOperand op.iteratorTypes.length m0 op.lhsTy)
    (seqE (checkMapOperand op.iteratorTypes.length m1 op.rhsTy)
    (seqE (checkMapOperand op.iteratorTypes.length m2 op.accTy)
    (seqE (check (inferContractionDims [m0, m1, m2] = true)
      "failed to infer contraction dims")
    (match op.getIterationBounds with
     | none => .error "failed to derive iteration bounds"
     | some bounds =>
       seqE (check (operandShapeMatches bounds m0.results op.lhsTy.shape = true)
         "lhs shape does not match iteration bounds")
       (seqE (check (operandShapeMatches bounds m1.results op.rhsTy.shape = true)
         "rhs shape does not match iteration bounds")
       (seqE (check (operandShapeMatches bounds m2.results op.accTy.shape = true)
         "accumulator shape does not match iteration bounds")
       (seqE (check (op.kind.aElem = op.lhsTy.elem)
         "lhs element type does not match expected element type for intrinsic")
       (seqE (check (op.kind.bElem = op.rhsTy.elem)
         "rhs element type does not match expected element type for intrinsic")
       (check (op.kind.cElem = op.accTy.elem)
         "accumulator element type does not match expected element type for intrinsic")))))))))
  | _ => .error "expected an indexing map for each operand"

/-- Spec-side reading of the per-operand shape condition: dimension by
dimension, the operand's outer shape entry at output position `j` equals
the derived bound of the input dimension that output `j` projects. -/
def specOuterShapeMatches (bounds : List MSize) (t : ShapedTy)
    (m : AffineMap) : Prop :=
  ∀ j : Nat, j < m.results.length →
    ∃ p, m.results.getD j (.cst 0) = .dim p ∧
      t.shape.getD j (.st 0) = bounds.getD p (.st 0)

/-- The success condition of MultiMma verification as the specification
states it, conjunct by conjunct. -/
def MultiMmaOp.verifySpec (op : MultiMmaOp) : Prop :=
  op.indexingMaps.length = 3 ∧
  (∀ m ∈ op.indexingMaps,
     m.isProjectedPermutation = true ∧ m.numSymbols = 0) ∧
  (∀ m ∈ op.indexingMaps, m.numDims = op.iteratorTypes.length) ∧
  (∀ mt ∈ op.indexingMaps.zip [op.lhsTy, op.rhsTy, op.accTy],
     mt.1.results.length < mt.2.rank ∧
     ∀ s ∈ mt.2.shape.drop mt.1.results.length, s.isDynamic = false) ∧
  inferContractionDims op.indexingMaps = true ∧
  (∃ bounds, op.getIterationBounds = some bounds ∧
     ∀ mt ∈ op.indexingMaps.zip [op.lhsTy, op.rhsTy, op.accTy],
       specOuterShapeMatches bounds mt.2 mt.1) ∧
  (op.lhsTy.elem = op.kind.aElem ∧ op.rhsTy.elem = op.kind.bElem ∧
   op.accTy.elem = op.kind.cElem)

/-- Evaluation of one projected-permutation result against an input
vector: a dimension result selects the input entry at its position (a
non-dimension result, unreachable here, denotes its constant). -/
def permEval (input : List Int) : AffineExpr → Int
  | .dim p => input.getD p 0
  | .cst v => v

/-- `mlir::applyPermutationMap` restricted to the projected-permutation
maps in play. -/
def applyPermutationMap (m : AffineMap) (input : List Int) : List Int :=
  m.results.map (permEval input)

/-- `mlir::computeShapeRatio`: align `subShape` with the trailing
dimensions of `shape`; every aligned pair must divide exactly (the C++
loop walks the two reversed lists and bails out at the first non-zero
remainder, `/` and `%` being C++ truncating division), the leading
unmatched dimensions are taken over greedily. -/
def computeShapeRatio (shape subShape : List Int) : Option (List Int) :=
  if shape.length < subShape.length then none
  else
    let lead := shape.take (shape.length - subShape.length)
    let trail := shape.drop (shape.length - subShape.length)
    if (trail.zip subShape).all (fun p => p.1.tmod p.2 == 0)
    then some (lead ++ (trail.zip subShape).map (fun p => p.1.tdiv p.2))
    else none

/-- `mlir::ceilDiv` from `MathExtras.h` (C++ `/` truncates toward zero;
the `rhs != 0` assertion is modelled by returning 0). -/
def mlirCeilDiv (lhs rhs : Int) : Int :=
  if rhs = 0 then 0
  else
    let x : Int := if 0 < rhs then -1 else 1
    if lhs ≠ 0 ∧ (0 < lhs ↔ 0 < rhs) then (lhs + x).tdiv rhs + 1
    else -((-lhs).tdiv rhs)

/-- All multi-indices below the given extents, in row-major order (first
extent outermost, last varying fastest). -/
def coordsOf : List Nat → List (List Nat)
  | [] => [[]]
  | e :: rest =>
    ((List.range e).map (fun i => (coordsOf rest).map (i :: ·))).flatten

/-- Pick the entries of `xs` at the positions listed in `order`. -/
def permuteBy (order : List Nat) (xs : List Int) : List Int :=
  order.map fun d => xs.getD d 0

/-- First index of `d` in a list of naturals. -/
def idxOfNat : List Nat → Nat → Option Nat
  | [], _ => none
  | e :: rest, t => if e = t then some 0 else (idxOfNat rest t).map (· + 1)

/-- Undo `permuteBy`: entry `d` of the result is the permuted entry at the
position where `order` mentions `d`. -/
def invPermute (order : List Nat) (len : Nat) (permuted : List Int) :
    List Int :=
  (List.range len).map fun d =>
    match idxOfNat order d with
    | some k => permuted.getD k 0
    | none => 0

/-- `vector::StaticTileOffsetRange(shape, tileShape, loopOrder)`: the
per-dimension tile counts are the ceil-divided extents; the tiles are
enumerated row-major over the dimensions reordered by `loopOrder`
(`loopOrder[0]` outermost), and each tile coordinate is scaled back by the
tile shape to yield per-dimension offsets. -/
def tileOffsetsEnum (shape tile : List Int) (order : List Nat) :
    List (List Int) :=
  let counts := List.zipWith mlirCeilDiv shape tile
  let permCounts := permuteBy order counts
  (coordsOf (permCounts.map Int.toNat)).map fun pc =>
    let coord := invPermute order shape.length (pc.map Int.ofNat)
    List.zipWith (· * ·) coord tile

/-- The strategy hooks of `vector::UnrollVectorOptions` used by the
MultiMma unroll pattern. -/
structure UnrollOptions where
  filterConstraint : Option (MultiMmaOp → Bool)
  nativeShape : MultiMmaOp → Option (List Int)
  traversalOrderCallback : Option (MultiMmaOp → Option (List Nat))

/-- `getUnrollOrder`: the identity order unless the traversal-order
callback is set and produces an order. -/
def getUnrollOrder (numLoops : Nat) (op : MultiMmaOp)
    (options : UnrollOptions) : List Nat :=
  match options.traversalOrderCallback with
  | none => List.range numLoops
  | some cb =>
    match cb op with
    | some order => order
    | none => List.range numLoops

/-- Where a tile's accumulator operand comes from: freshly extracted from
the original accumulator at the given accumulator-space offsets, or the
memoized result of an earlier tile. -/
inductive AccSource where
  | fresh (offsets : List Int)
  | memo (tileIdx : Nat)
deriving DecidableEq, Repr

/-- Modelled from the spec: the per-role outer/inner split accessors
(`getLhsOuterRank`, `getAccInnerShape`, ...) are declared in the
TableGen-generated op class, not in the given sources; per the spec a
map's results address the outer dimensions and the remaining trailing
operand dimensions are the fixed inner (native) dimensions. -/
def outerRankOf (m : AffineMap) : Nat := m.results.length

/-- The inner (native) shape of an operand: its shape with the outer,
map-addressed dimensions dropped (see `outerRankOf`). -/
def innerShapeOf (m : AffineMap) (t : ShapedTy) : List MSize :=
  t.shape.drop m.results.length

/-- Type of `vector::ExtractStridedSliceOp` as built by `extractOperand`:
the leading dimensions take the permuted target shape, the trailing
(inner) dimensions are untouched; a vector result. -/
def sliceTy (m : AffineMap) (target : List Int) (t : ShapedTy) : ShapedTy :=
  { shape := (applyPermutationMap m target).map MSize.st ++
      t.shape.drop m.results.length
    elem := t.elem
    tensor := t.tensor }

/-- The per-tile result type: the accumulator-permuted target shape
followed by the accumulator inner shape, over the destination vector's
element type. -/
def unrollTargetTy (m2 : AffineMap) (target : List Int) (accTy : ShapedTy) :
    ShapedTy :=
  { shape := (applyPermutationMap m2 target).map MSize.st ++
      accTy.shape.drop m2.results.length
    elem := accTy.elem
    tensor := false }

/-- One tile produced by the unroll loop: its iteration-space offsets, the
per-operand projected offsets, the provenance of its accumulator slice,
and the cloned per-tile MultiMma operation. -/
structure TileInfo where
  offsets : List Int
  lhsOffsets : List Int
  rhsOffsets : List Int
  accOffsets : List Int
  accSource : AccSource
  newOp : MultiMmaOp
deriving DecidableEq, Repr

/-- A default tile, for out-of-range `getD` accesses in statements. -/
def dfltTile : TileInfo :=
  { offsets := [], lhsOffsets := [], rhsOffsets := [], accOffsets := []
    accSource := .fresh []
    newOp :=
      { lhsTy := ⟨[], 0, false⟩, rhsTy := ⟨[], 0, false⟩
        accTy := ⟨[], 0, false⟩, indexingMaps := [], iteratorTypes := []
        kind := ⟨0, 0, 0⟩ } }

/-- Lookup in the accumulator memo table (`llvm::MapVector::find`). -/
def cacheFind (cache : List (List Int × Nat)) (k : List Int) : Option Nat :=
  match cache with
  | [] => none
  | (k', v) :: rest => if k' = k then some v else cacheFind rest k

/-- Update-or-append on the memo table (`accCache[dstOffets] = ...`): an
existing key keeps its position and gets the new value, a new key is
appended, so iteration order is insertion order with later overwrite
winning. -/
def cacheInsert (cache : List (List Int × Nat)) (k : List Int) (v : Nat) :
    List (List Int × Nat) :=
  match cache with
  | [] => [(k, v)]
  | (k', v') :: rest =>
    if k' = k then (k', v) :: rest else (k', v') :: cacheInsert rest k v

/-- The per-tile cloned operation: `mlir::clone` copies every attribute
(indexing maps, iterator kinds, intrinsic kind) and swaps in the slice
operands and the per-tile result type. -/
def clonedOpOf (op : MultiMmaOp) (target : List Int) : MultiMmaOp :=
  { lhsTy := sliceTy (op.mapOf 0) target op.lhsTy
    rhsTy := sliceTy (op.mapOf 1) target op.rhsTy
    accTy := unrollTargetTy (op.mapOf 2) target op.accTy
    indexingMaps := op.indexingMaps
    iteratorTypes := op.iteratorTypes
    kind := op.kind }

/-- The tile record one unroll iteration produces (see `unrollStep`). -/
def mkTile (op : MultiMmaOp) (target : List Int)
    (cache : List (List Int × Nat)) (offs : List Int) : TileInfo :=
  { offsets := offs
    lhsOffsets := applyPermutationMap (op.mapOf 0) offs
    rhsOffsets := applyPermutationMap (op.mapOf 1) offs
    accOffsets := applyPermutationMap (op.mapOf 2) offs
    accSource :=
      match cacheFind cache (applyPermutationMap (op.mapOf 2) offs) with
      | some w => AccSource.memo w
      | none => AccSource.fresh (applyPermutationMap (op.mapOf 2) offs)
    newOp := clonedOpOf op target }

/-- One iteration of the unroll loop body: project the tile offsets
through each operand map, consult the memo table for the accumulator
slice, clone the operation onto the slices with the per-tile result type,
and memoize the new result under the accumulator-space offsets. -/
def unrollStep (op : MultiMmaOp) (target : List Int)
    (state : List TileInfo × List (List Int × Nat)) (offs : List Int) :
    List TileInfo × List (List Int × Nat) :=
  let m0 := op.mapOf 0
  let m1 := op.mapOf 1
  let m2 := op.mapOf 2
  let tiles := state.1
  let cache := state.2
  let tIdx := tiles.length
  let lhsOff := applyPermutationMap m0 offs
  let rhsOff := applyPermutationMap m1 offs
  let accOff := applyPermutationMap m2 offs
  let accSource :=
    match cacheFind cache accOff with
    | some k => AccSource.memo k
    | none => AccSource.fresh accOff
  let tile : TileInfo :=
    { offsets := offs
      lhsOffsets := lhsOff
      rhsOffsets := rhsOff
      accOffsets := accOff
      accSource := accSource
      newOp := clonedOpOf op target }
  (tiles ++ [tile], cacheInsert cache accOff tIdx)

/-- Outcome of a successful MultiMma unroll rewrite: the tiles in
traversal order, the final memo table (insertion-ordered), the type of the
zero-initialized assembly constant, and the full insertion offsets of each
memoized result into it. -/
structure UnrollResult where
  tiles : List TileInfo
  assembled : List (List Int × Nat)
  assemblyBase : ShapedTy
  insertOffsets : List (List Int)
deriving DecidableEq, Repr

/-- A default unroll result, for closed statements that project out of an
`Except`. -/
def dfltUnrollResult : UnrollResult :=
  { tiles := [], assembled := [], assemblyBase := ⟨[], 0, false⟩
    insertOffsets := [] }

/-- `UnrollMultiMmaPattern::matchAndRewrite`, each `notifyMatchFailure`
early return becoming an `Except.error` (a failed match performs no
rewrite; a mutation happens only on the `ok` path).  The
`cast<VectorType>(mmaOp.getResultType())` assertion is modelled as an
error. -/
def unrollMultiMma (options : UnrollOptions) (op : MultiMmaOp) :
    Except String UnrollResult :=
  let passesFilter :=
    match options.filterConstraint with
    | some f => f op
    | none => true
  if !passesFilter then .error "unrolling filter"
  else
    match op.getShapeForUnroll with
    | none => .error "unexpected failure to get unroll shape"
    | some boundsM =>
      match options.nativeShape op with
      | none => .error "unspecified native unroll shape"
      | some target =>
        let originalSize := boundsM.map MSize.toInt
        match computeShapeRatio originalSize target with
        | none => .error "operation unroll shape not divisible by target shape"
        | some ratio =>
          if ratio.all (· = 1) then
            .error "operation already unrolled to native shape"
          else if op.hasTensorSemantics then
            .error "result type is not a vector type"
          else
            let order := getUnrollOrder op.iteratorTypes.length op options
            let offsList := tileOffsetsEnum originalSize target order
            let final := offsList.foldl (unrollStep op target) ([], [])
            let innerAcc := innerShapeOf (op.mapOf 2) op.accTy
            .ok
              { tiles := final.1
                assembled := final.2
                assemblyBase :=
                  { shape := op.accTy.shape, elem := op.accTy.elem
                    tensor := false }
                insertOffsets := final.2.map
                  (fun e => e.1 ++ List.replicate innerAcc.length 0) }

/-- Outcome of `DropMultiMmaUnitDimsPattern`: how many leading unit
dimensions were dropped per operand, the re-issued native MultiMma
operation, and the type the rank-reduced result is broadcast back to. -/
structure DropUnitDimsResult where
  lhsDropped : Nat
  rhsDropped : Nat
  accDropped : Nat
  newOp : MultiMmaOp
  broadcastResultTy : ShapedTy
deriving DecidableEq, Repr

/-- Drop `n` leading dimensions of a shaped type (`dropLeadUnitDims`
builds a `vector.extract` at `n` zero indices; `n = 0` leaves the operand
untouched). -/
def dropLeadDimsTy (t : ShapedTy) (n : Nat) : ShapedTy :=
  { t with shape := t.shape.drop n }

/-- `DropMultiMmaUnitDimsPattern::matchAndRewrite`: fails on tensor
semantics, on empty bounds, and on any non-unit bound, otherwise drops the
per-operand outer ranks, re-issues the MultiMma with three empty indexing
maps and an empty iterator list, and broadcasts back to the original
result type. -/
def dropMultiMmaUnitDims (op : MultiMmaOp) :
    Except String DropUnitDimsResult :=
  if op.hasTensorSemantics then
    .error "unimplemented: unit dim dropping for tensor mma ops"
  else
    match op.getIterationBounds with
    | none => .error "failed to derive iteration bounds"
    | some bounds =>
      if bounds.isEmpty then .error "no dimensions to fold"
      else if !(bounds.all (· = .st 1)) then
        .error "not all iteration bounds are unit"
      else
        .ok
          { lhsDropped := outerRankOf (op.mapOf 0)
            rhsDropped := outerRankOf (op.mapOf 1)
            accDropped := outerRankOf (op.mapOf 2)
            newOp :=
              { lhsTy := dropLeadDimsTy op.lhsTy (outerRankOf (op.mapOf 0))
                rhsTy := dropLeadDimsTy op.rhsTy (outerRankOf (op.mapOf 1))
                accTy := dropLeadDimsTy op.accTy (outerRankOf (op.mapOf 2))
                indexingMaps := [emptyAffineMap, emptyAffineMap, emptyAffineMap]
                iteratorTypes := []
                kind := op.kind }
            broadcastResultTy := op.getResultType }

/-- An `OpFoldResult`-style mixed static/dynamic entry: a known integer
attribute or a dynamic SSA value (identified by an id). -/
inductive MixedVal where
  | cst (v : Int)
  | dynV (id : Nat)
deriving DecidableEq, Repr

/-- The static form of a mixed entry, with the dynamic sentinel
(`getStaticLowerBound` et al.). -/
def staticOfMixed : MixedVal → Int
  | .cst v => v
  | .dynV _ => kDynamic

/-- `isConstantIntValue val cmp` on a mixed entry (a dynamic value is not
a known constant). -/
def isConstantVal (v : MixedVal) (cmp : Int) : Bool :=
  match v with
  | .cst w => w = cmp
  | .dynV _ => false

/-- A value reference inside the nested body of a shuffle region: the
block argument, the result of a preceding body operation, or a value from
outside the region. -/
inductive BVal where
  | arg
  | res (i : Nat)
  | ext (v : Nat)
deriving DecidableEq, Repr

/-- The single-block nested region of a ShuffleTensor operation: the
operand lists of its non-terminator operations, and the yielded value. -/
structure ShuffleBody where
  ops : List (List BVal)
  yield : BVal
deriving DecidableEq, Repr

/-- `iree_gpu.shuffle_tensor`: a source slice (offsets/sizes/strides into
the destination buffer), the destination, and the nested region. -/
structure ShuffleTensorOp where
  source : Nat
  dest : Nat
  offsets : List MixedVal
  sizes : List MixedVal
  strides : List MixedVal
  body : ShuffleBody
deriving DecidableEq, Repr

/-- A value in the lowered shuffle sequence: the inserted slice, the
write-side barrier result, an inlined body operation's result, the
read-side barrier result, or an external value. -/
inductive LVal where
  | inserted
  | wbar
  | bodyRes (i : Nat)
  | rbar
  | ext (v : Nat)
deriving DecidableEq, Repr

/-- Inlining substitution of `LowerShuffleTensor`: the block argument is
replaced by the write barrier's result, body results keep their identity,
external values pass through. -/
def substBody : BVal → LVal
  | .arg => .wbar
  | .res i => .bodyRes i
  | .ext v => .ext v

/-- The kinds of operations `LowerShuffleTensor` emits, in order. -/
inductive TraceStep where
  | insertSlice
  | writeBarrier
  | inlinedOp
  | readBarrier
deriving DecidableEq, Repr

/-- The lowered form of a shuffle: the slice insertion's operands, the two
barriers' inputs, the inlined body, what replaces the shuffle's result,
and the emission order. -/
structure ShuffleLoweringResult where
  insertSource : Nat
  insertDest : Nat
  insertOffsets : List MixedVal
  insertSizes : List MixedVal
  insertStrides : List MixedVal
  writeBarrierInput : LVal
  inlinedOps : List (List LVal)
  readBarrierInput : LVal
  resultReplacement : LVal
  trace : List TraceStep
deriving DecidableEq, Repr

/-- `LowerShuffleTensor::matchAndRewrite`: insert the source slice into
the destination at the declared offsets/sizes/strides, wrap the inserted
value in a write-side barrier, inline the body with the block argument
replaced by the write barrier, wrap the yielded value in a read-side
barrier, and replace all uses of the shuffle result with it. -/
def lowerShuffleTensor (s : ShuffleTensorOp) : ShuffleLoweringResult :=
  { insertSource := s.source
    insertDest := s.dest
    insertOffsets := s.offsets
    insertSizes := s.sizes
    insertStrides := s.strides
    writeBarrierInput := .inserted
    inlinedOps := s.body.ops.map (fun operands => operands.map substBody)
    readBarrierInput := substBody s.body.yield
    resultReplacement := .rbar
    trace := [.insertSlice, .writeBarrier] ++
      s.body.ops.map (fun _ => .inlinedOp) ++ [.readBarrier] }

/-- A `gpu` mapping attribute on an scf.forall axis: thread-mapped,
warp-mapped, or some other mapping kind. -/
inductive MappingAttr where
  | thread (d : Nat)
  | warp (d : Nat)
  | other (d : Nat)
deriving DecidableEq, Repr

/-- The attribute is a `GPUThreadMappingAttr`. -/
def MappingAttr.isThread : MappingAttr → Bool
  | .thread _ => true
  | _ => false

/-- The attribute is a `GPUWarpMappingAttr`. -/
def MappingAttr.isWarp : MappingAttr → Bool
  | .warp _ => true
  | _ => false

/-- The `tensor.parallel_insert_slice` write a producer's terminator
performs. -/
structure InsertDesc where
  source : Nat
  dest : Nat
  offsets : List MixedVal
  sizes : List MixedVal
  strides : List MixedVal
deriving DecidableEq, Repr

/-- An `scf.forall` worker-parallel region as the fusion consumes it:
mixed bounds and steps, per-axis mapping attributes, result count, shared
outputs, and the partial insertions of its terminator. -/
structure ForallOp where
  lb : List MixedVal
  ub : List MixedVal
  step : List MixedVal
  mapping : List MappingAttr
  numResults : Nat
  outputs : List Nat
  yieldingInserts : List InsertDesc
deriving DecidableEq, Repr

/-- `getTripCount`: fail when any static bound entry is the dynamic
sentinel (or the per-axis lists disagree in length, where the C++
`zip_equal` asserts), else the product of per-axis `ceilDiv(ub - lb,
step)`. -/
def getTripCount (loop : ForallOp) : Option Int :=
  let lbs := loop.lb.map staticOfMixed
  let ubs := loop.ub.map staticOfMixed
  let steps := loop.step.map staticOfMixed
  if lbs.any (· = kDynamic) ∨ ubs.any (· = kDynamic) ∨
      steps.any (· = kDynamic) then none
  else if lbs.length = ubs.length ∧ ubs.length = steps.length then
    some ((List.zip lbs (List.zip ubs steps)).foldl
      (fun acc e => acc * mlirCeilDiv (e.2.1 - e.1) e.2.2) 1)
  else none

/-- `checkMappingTypes`: homogeneously thread-mapped or homogeneously
warp-mapped. -/
def checkMappingTypes (attrs : List MappingAttr) : Bool :=
  attrs.all MappingAttr.isThread || attrs.all MappingAttr.isWarp

/-- `compareWorkerCountsAndTypes`: both trip counts must be computable and
equal, the mapping attributes identical, and each homogeneously thread- or
warp-mapped. -/
def compareWorkerCountsAndTypes (producer consumer : ForallOp) : Bool :=
  match getTripCount producer, getTripCount consumer with
  | some p, some c =>
    p == c && producer.mapping == consumer.mapping &&
      checkMappingTypes producer.mapping &&
      checkMappingTypes consumer.mapping
  | _, _ => false

/-- An operation in the consumer chain handed to the fusion: the
slice extraction the chain must end in, or some other operation. -/
inductive ConsumerOp where
  | extractSlice (id : Nat)
  | other (id : Nat)
deriving DecidableEq, Repr

/-- `v` is a slice extraction. -/
def ConsumerOp.isExtractSlice : ConsumerOp → Bool
  | .extractSlice _ => true
  | .other _ => false

/-- What a successful forall fusion produced: the extents used to
linearize the consumer worker ids and to delinearize into producer ids,
how many times the producer body was spliced in, and the ShuffleTensor
operation built from the producer's partial insertion. -/
structure FusionResult where
  consumerExtents : List Int
  producerExtents : List Int
  inlinedProducerBodies : Nat
  shuffleCount : Nat
  shuffleSource : Nat
  shuffleDest : Nat
  shuffleOffsets : List MixedVal
  shuffleSizes : List MixedVal
  shuffleStrides : List MixedVal
deriving DecidableEq, Repr

/-- `fuseForallIntoSlice`: all precondition checks happen before any
mutation (the rewriter is first touched after the last check), so every
failure path is modelled as an `Except.error` carrying no rewrite.  The
`cast<tensor::ParallelInsertSliceOp>(*getYieldingOps().begin())` on an
empty terminator is an assertion, modelled as an error. -/
def fuseForallIntoSlice (producer consumer : ForallOp)
    (consumerChain : List ConsumerOp) : Except Unit FusionResult :=
  if consumerChain.isEmpty then .error ()
  else
    match consumerChain.getLast? with
    | some (ConsumerOp.extractSlice _) =>
      if producer.numResults ≠ 1 then .error ()
      else if !(compareWorkerCountsAndTypes producer consumer) then .error ()
      else if !((producer.step.all (isConstantVal · 1)) &&
          (producer.lb.all (isConstantVal · 0)) &&
          (consumer.step.all (isConstantVal · 1)) &&
          (consumer.lb.all (isConstantVal · 0))) then .error ()
      else
        match producer.yieldingInserts with
        | [] => .error ()
        | insert :: _ =>
          .ok
            { consumerExtents := consumer.ub.map staticOfMixed
              producerExtents := producer.ub.map staticOfMixed
              inlinedProducerBodies := 1
              shuffleCount := 1
              shuffleSource := insert.source
              shuffleDest := insert.dest
              shuffleOffsets := insert.offsets
              shuffleSizes := insert.sizes
              shuffleStrides := insert.strides }
    | _ => .error ()

/-- Denotation of the linear-id computation the fusion emits: starting
from 0, fold `id = id * extent + index` over the per-axis (extent, index)
pairs in axis order. -/
def linearizeIndex (extents idxs : List Int) : Int :=
  (List.zip extents idxs).foldl (fun id p => id * p.1 + p.2) 0

/-- Product of a list of integers. -/
def listProd (xs : List Int) : Int := xs.prod

/-- The row-major linearization formula the spec describes: each index is
weighted by the product of all later extents. -/
def rowMajorVal : List Int → List Int → Int
  | _ :: es, i :: is => i * listProd es + rowMajorVal es is
  | _, _ => 0

/-- Denotation of `affine.delinearize_index` over a full basis: the last
result is the id modulo the last extent, each earlier result divides out
the product of the later extents, and the first result keeps the whole
remaining quotient.  Division is floor division, written with Euclidean
`/` and `%`, which agree with floor division on the positive worker
counts in play. -/
def delinearizeIndex : Int → List Int → List Int
  | _, [] => []
  | id, [_] => [id]
  | id, _ :: rest =>
    let p := listProd rest
    id / p :: delinearizeIndex (id % p) rest

/-- A default fusion result, for closed statements that project out of an
`Except`. -/
def dfltFusionResult : FusionResult :=
  { consumerExtents := [], producerExtents := [], inlinedProducerBodies := 0
    shuffleCount := 0, shuffleSource := 0, shuffleDest := 0
    shuffleOffsets := [], shuffleSizes := [], shuffleStrides := [] }

/-- A shuffle whose body is the identity: no operations, the block
argument yielded unchanged. -/
def idShuffleEx : ShuffleTensorOp :=
  { source := 1, dest := 2, offsets := [.cst 0], sizes := [.cst 4]
    strides := [.cst 1], body := { ops := [], yield := .arg } }

/-- Example producer loop for fusion: 4 workers on one thread-mapped
axis, one partial insertion in the terminator. -/
def fuseProducerEx : ForallOp :=
  { lb := [.cst 0], ub := [.cst 4], step := [.cst 1], mapping := [.thread 0]
    numResults := 1, outputs := [10]
    yieldingInserts := [⟨11, 12, [.cst 0], [.cst 2], [.cst 1]⟩] }

/-- Example consumer loop for fusion: 4 workers on one thread-mapped
axis. -/
def fuseConsumerEx : ForallOp :=
  { lb := [.cst 0], ub := [.cst 4], step := [.cst 1], mapping := [.thread 0]
    numResults := 1, outputs := [20], yieldingInserts := [] }

/-- Example consumer chain ending in a slice extraction. -/
def fuseChainEx : List ConsumerOp := [.extractSlice 30]

/-- Example producer with a worker count different from
`fuseConsumerEx`. -/
def fuseProducerSmallEx : ForallOp :=
  { fuseProducerEx with ub := [.cst 2] }

/-- Example producer with a dynamic upper bound. -/
def fuseProducerDynEx : ForallOp :=
  { fuseProducerEx with ub := [.dynV 5] }

/-- A standard M-by-K times K contraction example: iterators
(parallel, reduction), lhs map (d0, d1), rhs map (d1), acc map (d0),
outer bounds 2 by 2, inner dimension 4. -/
def stdMmaOp : MultiMmaOp :=
  { lhsTy := ⟨[.st 2, .st 2, .st 4], 1, false⟩
    rhsTy := ⟨[.st 2, .st 4], 2, false⟩
    accTy := ⟨[.st 2, .st 4], 3, false⟩
    indexingMaps := [⟨2, 0, [.dim 0, .dim 1]⟩, ⟨2, 0, [.dim 1]⟩,
      ⟨2, 0, [.dim 0]⟩]
    iteratorTypes := [.parallel, .reduction]
    kind := ⟨1, 2, 3⟩ }

/-- Unroll options targeting the native shape (1, 1) with default order
and no filter. -/
def unrollOptsOnes : UnrollOptions :=
  { filterConstraint := none, nativeShape := fun _ => some [1, 1]
    traversalOrderCallback := none }

/-- Unroll options whose target shape (3, 1) does not divide the example
bounds (2, 2). -/
def unrollOptsNonDvd : UnrollOptions :=
  { filterConstraint := none, nativeShape := fun _ => some [3, 1]
    traversalOrderCallback := none }

/-- Example operation with outer rank 2 on every operand and all-ones
iteration bounds. -/
def unitDimsOp : MultiMmaOp :=
  { lhsTy := ⟨[.st 1, .st 1, .st 4], 1, false⟩
    rhsTy := ⟨[.st 1, .st 1, .st 4], 2, false⟩
    accTy := ⟨[.st 1, .st 1, .st 4], 3, false⟩
    indexingMaps := [⟨2, 0, [.dim 0, .dim 1]⟩, ⟨2, 0, [.dim 1, .dim 0]⟩,
      ⟨2, 0, [.dim 0, .dim 1]⟩]
    iteratorTypes := [.parallel, .reduction]
    kind := ⟨1, 2, 3⟩ }

/-- Index of the latest tile in the list whose accumulator-space offsets
equal `k`. -/
def lastWith (tiles : List TileInfo) (k : List Int) : Option Nat :=
  (List.range tiles.length).foldl
    (fun acc i => if (tiles.getD i dfltTile).accOffsets = k then some i
      else acc) none

/-- What the unroll loop guarantees of the tile at position `j`: its
per-operand offsets are its coordinates projected through the operand
maps, its accumulator slice comes from the latest earlier tile with the
same accumulator offsets (fresh when there is none), and its operation is
the attribute-preserving clone. -/
def TileOK (op : MultiMmaOp) (target : List Int) (tiles : List TileInfo)
    (j : Nat) : Prop :=
  (tiles.getD j dfltTile).lhsOffsets =
    applyPermutationMap (op.mapOf 0) (tiles.getD j dfltTile).offsets ∧
  (tiles.getD j dfltTile).rhsOffsets =
    applyPermutationMap (op.mapOf 1) (tiles.getD j dfltTile).offsets ∧
  (tiles.getD j dfltTile).accOffsets =
    applyPermutationMap (op.mapOf 2) (tiles.getD j dfltTile).offsets ∧
  (tiles.getD j dfltTile).accSource =
    (match lastWith (tiles.take j) (tiles.getD j dfltTile).accOffsets with
     | some w => AccSource.memo w
     | none => AccSource.fresh (tiles.getD j dfltTile).accOffsets) ∧
  (tiles.getD j dfltTile).newOp = clonedOpOf op target

/-- Invariant of the unroll loop state: the memo table maps each key to
the latest tile with those accumulator offsets, its keys are distinct,
and every emitted tile satisfies `TileOK`. -/
def StateOK (op : MultiMmaOp) (target : List Int)
    (s : List TileInfo × List (List Int × Nat)) : Prop :=
  (∀ k, cacheFind s.2 k = lastWith s.1 k) ∧
  s.2.Pairwise (fun a b => a.1 ≠ b.1) ∧
  (∀ j, j < s.1.length → TileOK op target s.1 j)

/-- Every dimension the accumulator map refers to is parallel-kind (the
side condition under which reduction-only coordinate changes leave the
accumulator offsets unchanged). -/
def accMapAllParallel (op : MultiMmaOp) : Bool :=
  (op.mapOf 2).results.all fun e =>
    match e with
    | .dim d => op.iteratorTypes.getD d .parallel == .parallel
    | .cst _ => true

/-- A MultiMma operation whose reduction dimension d1 also appears in the
accumulator map: it passes verification, yet tile coordinates differing
only in d1 project to different accumulator offsets. -/
def cexAccOp : MultiMmaOp :=
  { lhsTy := ⟨[.st 1, .st 2, .st 4], 1, false⟩
    rhsTy := ⟨[.st 2, .st 4], 2, false⟩
    accTy := ⟨[.st 1, .st 2, .st 4], 3, false⟩
    indexingMaps := [⟨2, 0, [.dim 0, .dim 1]⟩, ⟨2, 0, [.dim 1]⟩,
      ⟨2, 0, [.dim 0, .dim 1]⟩]
    iteratorTypes := [.parallel, .reduction]
    kind := ⟨1, 2, 3⟩ }

/-- The unroll result of the standard example at native shape (1, 1). -/
def stdUnrollRes : UnrollResult :=
  (unrollMultiMma unrollOptsOnes stdMmaOp).toOption.getD dfltUnrollResult

/-- The unroll result of `cexAccOp` at native shape (1, 1). -/
def cexAccUnroll : UnrollResult :=
  (unrollMultiMma unrollOptsOnes cexAccOp).toOption.getD dfltUnrollResult

theorem seqE_ok_iff (a b : Except String Unit) :
    seqE a b = .ok () ↔ (a = .ok () ∧ b = .ok ()) := by
  cases a with
  | ok u => cases u; simp [seqE]
  | error e => simp [seqE]

theorem check_ok_iff (p : Prop) [Decidable p] (msg : String) :
    check p msg = .ok () ↔ p := by
  unfold check
  split <;> simp_all

theorem zipFold_linear (es : List Int) :
    ∀ (is : List Int) (a : Int), es.length = is.length →
      (List.zip es is).foldl (fun id p => id * p.1 + p.2) a =
        a * listProd es + rowMajorVal es is := by
  induction es with
  | nil =>
    intro is a h
    cases is with
    | nil => simp [listProd, rowMajorVal]
    | cons i is => simp at h
  | cons e es ih =>
    intro is a h
    cases is with
    | nil => simp at h
    | cons i is =>
      simp only [List.zip_cons_cons, List.foldl_cons]
      rw [ih is (a * e + i) (by simpa using h)]
      show (a * e + i) * listProd es + rowMajorVal es is =
        a * listProd (e :: es) + (i * listProd es + rowMajorVal es is)
      simp only [listProd, List.prod_cons]
      ring

theorem linearize_eq_rowMajor (es is : List Int) (h : es.length = is.length) :
    linearizeIndex es is = rowMajorVal es is := by
  unfold linearizeIndex
  rw [zipFold_linear es is 0 h]
  ring

theorem delinearize_length (basis : List Int) :
    ∀ L : Int, (delinearizeIndex L basis).length = basis.length := by
  induction basis with
  | nil => intro L; rfl
  | cons b rest ih =>
    intro L
    cases rest with
    | nil => rfl
    | cons c cs =>
      show (_ :: delinearizeIndex _ (c :: cs)).length = _
      simp [ih]

theorem linearize_delinearize (basis : List Int) :
    ∀ L : Int, basis ≠ [] →
      linearizeIndex basis (delinearizeIndex L basis) = L := by
  induction basis with
  | nil => intro L h; exact absurd rfl h
  | cons b rest ih =>
    intro L _
    cases rest with
    | nil =>
      show linearizeIndex [b] [L] = L
      simp [linearizeIndex]
    | cons c cs =>
      show linearizeIndex (b :: c :: cs)
        (L / listProd (c :: cs) ::
          delinearizeIndex (L % listProd (c :: cs)) (c :: cs)) = L
      unfold linearizeIndex
      simp only [List.zip_cons_cons, List.foldl_cons]
      rw [zipFold_linear (c :: cs) _ _ (by rw [delinearize_length])]
      rw [← linearize_eq_rowMajor _ _ (by rw [delinearize_length])]
      rw [ih (L % listProd (c :: cs)) (by simp)]
      have hdm : listProd (c :: cs) * (L / listProd (c :: cs)) +
          L % listProd (c :: cs) = L := Int.ediv_add_emod L (listProd (c :: cs))
      calc (0 * b + L / listProd (c :: cs)) * listProd (c :: cs) +
            L % listProd (c :: cs)
          = listProd (c :: cs) * (L / listProd (c :: cs)) +
            L % listProd (c :: cs) := by ring
        _ = L := hdm

theorem fuse_ok_inv (producer consumer : ForallOp) (chain : List ConsumerOp)
    (r : FusionResult)
    (h : fuseForallIntoSlice producer consumer chain = .ok r) :
    producer.numResults = 1 ∧
    compareWorkerCountsAndTypes producer consumer = true ∧
    ∃ ins rest, producer.yieldingInserts = ins :: rest ∧
      r = { consumerExtents := consumer.ub.map staticOfMixed
            producerExtents := producer.ub.map staticOfMixed
            inlinedProducerBodies := 1
            shuffleCount := 1
            shuffleSource := ins.source, shuffleDest := ins.dest
            shuffleOffsets := ins.offsets, shuffleSizes := ins.sizes
            shuffleStrides := ins.strides } := by
  cases hE : chain.isEmpty with
  | true => simp [fuseForallIntoSlice, hE] at h
  | false =>
  rcases hL : chain.getLast? with - | last
  · simp [fuseForallIntoSlice, hE, hL] at h
  cases last with
  | other i => simp [fuseForallIntoSlice, hE, hL] at h
  | extractSlice i =>
  by_cases hN : producer.numResults = 1
  case neg => simp [fuseForallIntoSlice, hE, hL, hN] at h
  cases hC : compareWorkerCountsAndTypes producer consumer with
  | false => simp [fuseForallIntoSlice, hE, hL, hN, hC] at h
  | true =>
  cases hK : ((producer.step.all (isConstantVal · 1)) &&
      (producer.lb.all (isConstantVal · 0)) &&
      (consumer.step.all (isConstantVal · 1)) &&
      (consumer.lb.all (isConstantVal · 0))) with
  | false => simp [fuseForallIntoSlice, hE, hL, hN, hC, hK] at h
  | true =>
  rcases hY : producer.yieldingInserts with - | ⟨ins, rest⟩
  · simp [fuseForallIntoSlice, hE, hL, hN, hC, hK, hY] at h
  · refine ⟨hN, rfl, ins, rest, rfl, ?_⟩
    simp [fuseForallIntoSlice, hE, hL, hN, hC, hK, hY] at h
    exact h.symm

/-- C8: on a successful worker-loop fusion, the consumer's linear worker
id is the row-major fold `id = id * extent + index` over the consumer's
axis extents, the producer-equivalent ids are its delinearization against
the producer's per-axis worker counts (relinearizing them recovers the
linear id exactly), the producer body is spliced exactly once, and exactly
one ShuffleRegion is produced, whose source/destination/offsets/sizes/
strides are those of the producer terminator's first partial-insertion
write. -/
theorem C8_fusion_algorithm (producer consumer : ForallOp)
    (chain : List ConsumerOp) (r : FusionResult)
    (h : fuseForallIntoSlice producer consumer chain = .ok r) :
    r.consumerExtents = consumer.ub.map staticOfMixed ∧
    r.producerExtents = producer.ub.map staticOfMixed ∧
    (∀ idxs : List Int, idxs.length = r.consumerExtents.length →
      linearizeIndex r.consumerExtents idxs =
        rowMajorVal r.consumerExtents idxs) ∧
    (r.producerExtents ≠ [] → ∀ L : Int,
      linearizeIndex r.producerExtents
        (delinearizeIndex L r.producerExtents) = L) ∧
    r.inlinedProducerBodies = 1 ∧
    r.shuffleCount = 1 ∧
    (∃ ins rest, producer.yieldingInserts = ins :: rest ∧
      r.shuffleSource = ins.source ∧ r.shuffleDest = ins.dest ∧
      r.shuffleOffsets = ins.offsets ∧ r.shuffleSizes = ins.sizes ∧
      r.shuffleStrides = ins.strides) := by
  obtain ⟨-, -, ins, rest, hins, hr⟩ :=
    fuse_ok_inv producer consumer chain r h
  subst hr
  refine ⟨rfl, rfl, ?_, ?_, rfl, rfl, ins, rest, hins, rfl, rfl, rfl, rfl, rfl⟩
  · intro idxs hlen
    exact linearize_eq_rowMajor _ idxs hlen.symm
  · intro hne L
    exact linearize_delinearize _ L hne

/-- C8 witness: a concrete fusion of two 4-worker thread-mapped loops
succeeds and the theorem applies to it. -/
theorem C8_fusion_algorithm_witness :
    (fuseForallIntoSlice fuseProducerEx fuseConsumerEx fuseChainEx =
      .ok ((fuseForallIntoSlice fuseProducerEx fuseConsumerEx
        fuseChainEx).toOption.getD dfltFusionResult)) ∧
    (((fuseForallIntoSlice fuseProducerEx fuseConsumerEx
        fuseChainEx).toOption.getD dfltFusionResult).inlinedProducerBodies = 1 ∧
     ((fuseForallIntoSlice fuseProducerEx fuseConsumerEx
        fuseChainEx).toOption.getD dfltFusionResult).shuffleCount = 1) := by
  refine ⟨rfl, ?_⟩
  obtain ⟨-, -, -, -, h5, h6, -⟩ :=
    C8_fusion_algorithm fuseProducerEx fuseConsumerEx fuseChainEx
      ((fuseForallIntoSlice fuseProducerEx fuseConsumerEx
        fuseChainEx).toOption.getD dfltFusionResult) rfl
  exact ⟨h5, h6⟩

theorem compare_false_of_trip (producer consumer : ForallOp)
    (h : getTripCount producer ≠ getTripCount consumer) :
    compareWorkerCountsAndTypes producer consumer = false := by
  unfold compareWorkerCountsAndTypes
  rcases hp : getTripCount producer with - | p <;>
    rcases hc : getTripCount consumer with - | c
  case none.none => exact absurd (hp.trans hc.symm) h
  case none.some => rfl
  case some.none => rfl
  case some.some =>
    rw [hp, hc] at h
    have hne : p ≠ c := fun he => h (by rw [he])
    have hbe : (p == c) = false := beq_eq_false_iff_ne.mpr hne
    simp [hbe]

theorem compare_false_of_mapping (producer consumer : ForallOp)
    (h : producer.mapping ≠ consumer.mapping) :
    compareWorkerCountsAndTypes producer consumer = false := by
  unfold compareWorkerCountsAndTypes
  rcases getTripCount producer with - | p <;>
    rcases getTripCount consumer with - | c <;> simp [h]

theorem compare_false_of_types (producer consumer : ForallOp)
    (h : checkMappingTypes producer.mapping = false ∨
      checkMappingTypes consumer.mapping = false) :
    compareWorkerCountsAndTypes producer consumer = false := by
  unfold compareWorkerCountsAndTypes
  rcases getTripCount producer with - | p <;>
    rcases getTripCount consumer with - | c <;>
    rcases h with h | h <;> simp [h]

theorem fuse_error_of_compare (producer consumer : ForallOp)
    (chain : List ConsumerOp)
    (h : compareWorkerCountsAndTypes producer consumer = false) :
    fuseForallIntoSlice producer consumer chain = .error () := by
  cases hE : chain.isEmpty with
  | true => simp [fuseForallIntoSlice, hE]
  | false =>
  rcases hL : chain.getLast? with - | last
  · simp [fuseForallIntoSlice, hE, hL]
  cases last with
  | other i => simp [fuseForallIntoSlice, hE, hL]
  | extractSlice i =>
  by_cases hN : producer.numResults = 1 <;>
    simp [fuseForallIntoSlice, hE, hL, hN, h]

theorem getTripCount_none_of_dyn (loop : ForallOp)
    (h : ∃ v, (v ∈ loop.lb ∨ v ∈ loop.ub ∨ v ∈ loop.step) ∧
      ∃ id, v = .dynV id) :
    getTripCount loop = none := by
  obtain ⟨v, hmem, id, hv⟩ := h
  subst hv
  unfold getTripCount
  have hcond : (loop.lb.map staticOfMixed).any (· = kDynamic) = true ∨
      (loop.ub.map staticOfMixed).any (· = kDynamic) = true ∨
      (loop.step.map staticOfMixed).any (· = kDynamic) = true := by
    rcases hmem with hm | hm | hm
    · exact Or.inl (by
        simp only [List.any_eq_true]
        exact ⟨kDynamic, List.mem_map.mpr ⟨.dynV id, hm, rfl⟩, by simp⟩)
    · exact Or.inr (Or.inl (by
        simp only [List.any_eq_true]
        exact ⟨kDynamic, List.mem_map.mpr ⟨.dynV id, hm, rfl⟩, by simp⟩))
    · exact Or.inr (Or.inr (by
        simp only [List.any_eq_true]
        exact ⟨kDynamic, List.mem_map.mpr ⟨.dynV id, hm, rfl⟩, by simp⟩))
  rw [if_pos]
  rcases hcond with hc | hc | hc <;> simp [hc]

/-- C9: worker-loop fusion fails, performing no rewrite, whenever any of
its preconditions is violated: option-level unequal trip counts,
mismatched mapping attributes, a mapping that is not homogeneously
thread- or warp-mapped, a producer without exactly one result, a nonzero
(or non-constant) lower bound, a non-unit (or non-constant) step, an
empty consumer chain, or a consumer chain not ending in a slice
extraction.  Every check precedes the first rewriter mutation in the
source, so a failure carries no mutation (the embedding rewrites only on
the `ok` path). -/
theorem C9_fusion_preconditions (producer consumer : ForallOp)
    (chain : List ConsumerOp)
    (h : getTripCount producer ≠ getTripCount consumer ∨
      producer.mapping ≠ consumer.mapping ∨
      checkMappingTypes producer.mapping = false ∨
      checkMappingTypes consumer.mapping = false ∨
      producer.numResults ≠ 1 ∨
      (∃ v ∈ producer.lb ++ consumer.lb, v ≠ .cst 0) ∨
      (∃ v ∈ producer.step ++ consumer.step, v ≠ .cst 1) ∨
      chain = [] ∨
      (∀ last, chain.getLast? = some last →
        last.isExtractSlice = false)) :
    fuseForallIntoSlice producer consumer chain = .error () := by
  rcases h with h | h | h | h | h | h | h | h | h
  · exact fuse_error_of_compare producer consumer chain
      (compare_false_of_trip producer consumer h)
  · exact fuse_error_of_compare producer consumer chain
      (compare_false_of_mapping producer consumer h)
  · exact fuse_error_of_compare producer consumer chain
      (compare_false_of_types producer consumer (Or.inl h))
  · exact fuse_error_of_compare producer consumer chain
      (compare_false_of_types producer consumer (Or.inr h))
  · cases hE : chain.isEmpty with
    | true => simp [fuseForallIntoSlice, hE]
    | false =>
    rcases hL : chain.getLast? with - | last
    · simp [fuseForallIntoSlice, hE, hL]
    cases last with
    | other i => simp [fuseForallIntoSlice, hE, hL]
    | extractSlice i => simp [fuseForallIntoSlice, hE, hL, h]
  · obtain ⟨v, hv, hne⟩ := h
    have hall : ((producer.step.all (isConstantVal · 1)) &&
        (producer.lb.all (isConstantVal · 0)) &&
        (consumer.step.all (isConstantVal · 1)) &&
        (consumer.lb.all (isConstantVal · 0))) = false := by
      rcases List.mem_append.mp hv with hm | hm
      all_goals
        have hvc : isConstantVal v 0 = false := by
          cases v with
          | cst w =>
            have hw : w ≠ 0 := fun he => hne (by rw [he])
            simp [isConstantVal, hw]
          | dynV id => rfl
      · have : producer.lb.all (isConstantVal · 0) = false := by
          cases hq : producer.lb.all (isConstantVal · 0) with
          | false => rfl
          | true => exact absurd (List.all_eq_true.mp hq v hm) (by simp [hvc])
        simp [this]
      · have : consumer.lb.all (isConstantVal · 0) = false := by
          cases hq : consumer.lb.all (isConstantVal · 0) with
          | false => rfl
          | true => exact absurd (List.all_eq_true.mp hq v hm) (by simp [hvc])
        simp [this]
    cases hE : chain.isEmpty with
    | true => simp [fuseForallIntoSlice, hE]
    | false =>
    rcases hL : chain.getLast? with - | last
    · simp [fuseForallIntoSlice, hE, hL]
    cases last with
    | other i => simp [fuseForallIntoSlice, hE, hL]
    | extractSlice i =>
    by_cases hN : producer.numResults = 1 <;>
      cases hC : compareWorkerCountsAndTypes producer consumer <;>
      simp [fuseForallIntoSlice, hE, hL, hN, hC, hall]
  · obtain ⟨v, hv, hne⟩ := h
    have hall : ((producer.step.all (isConstantVal · 1)) &&
        (producer.lb.all (isConstantVal · 0)) &&
        (consumer.step.all (isConstantVal · 1)) &&
        (consumer.lb.all (isConstantVal · 0))) = false := by
      have hvc : isConstantVal v 1 = false := by
        cases v with
        | cst w =>
          have hw : w ≠ 1 := fun he => hne (by rw [he])
          simp [isConstantVal, hw]
        | dynV id => rfl
      rcases List.mem_append.mp hv with hm | hm
      · have : producer.step.all (isConstantVal · 1) = false := by
          cases hq : producer.step.all (isConstantVal · 1) with
          | false => rfl
          | true => exact absurd (List.all_eq_true.mp hq v hm) (by simp [hvc])
        simp [this]
      · have : consumer.step.all (isConstantVal · 1) = false := by
          cases hq : consumer.step.all (isConstantVal · 1) with
          | false => rfl
          | true => exact absurd (List.all_eq_true.mp hq v hm) (by simp [hvc])
        simp [this]
    cases hE : chain.isEmpty with
    | true => simp [fuseForallIntoSlice, hE]
    | false =>
    rcases hL : chain.getLast? with - | last
    · simp [fuseForallIntoSlice, hE, hL]
    cases last with
    | other i => simp [fuseForallIntoSlice, hE, hL]
    | extractSlice i =>
    by_cases hN : producer.numResults = 1 <;>
      cases hC : compareWorkerCountsAndTypes producer consumer <;>
      simp [fuseForallIntoSlice, hE, hL, hN, hC, hall]
  · subst h
    simp [fuseForallIntoSlice]
  · cases hE : chain.isEmpty with
    | true => simp [fuseForallIntoSlice, hE]
    | false =>
    rcases hL : chain.getLast? with - | last
    · simp [fuseForallIntoSlice, hE, hL]
    cases last with
    | other i => simp [fuseForallIntoSlice, hE, hL]
    | extractSlice i => exact absurd (h _ hL) (by simp [ConsumerOp.isExtractSlice])

/-- C9 witness: fusing a 2-worker producer into a 4-worker consumer
fails. -/
theorem C9_fusion_preconditions_witness :
    (getTripCount fuseProducerSmallEx ≠ getTripCount fuseConsumerEx) ∧
    fuseForallIntoSlice fuseProducerSmallEx fuseConsumerEx fuseChainEx =
      .error () := by
  refine ⟨by decide, ?_⟩
  exact C9_fusion_preconditions fuseProducerSmallEx fuseConsumerEx fuseChainEx
    (Or.inl (by decide))

/-- C10: worker-loop fusion fails (with no mutation on the failure path)
whenever any lower bound, upper bound, or step entry of either loop is a
dynamic value, because the trip-count computation refuses dynamic
entries. -/
theorem C10_fusion_dynamic_bounds (producer consumer : ForallOp)
    (chain : List ConsumerOp)
    (h : (∃ v, (v ∈ producer.lb ∨ v ∈ producer.ub ∨ v ∈ producer.step) ∧
        ∃ id, v = .dynV id) ∨
      (∃ v, (v ∈ consumer.lb ∨ v ∈ consumer.ub ∨ v ∈ consumer.step) ∧
        ∃ id, v = .dynV id)) :
    fuseForallIntoSlice producer consumer chain = .error () := by
  rcases h with h | h
  · have hnone := getTripCount_none_of_dyn producer h
    refine fuse_error_of_compare producer consumer chain ?_
    unfold compareWorkerCountsAndTypes
    rw [hnone]
  · have hnone := getTripCount_none_of_dyn consumer h
    refine fuse_error_of_compare producer consumer chain ?_
    unfold compareWorkerCountsAndTypes
    rw [hnone]
    rcases getTripCount producer with - | p <;> rfl

/-- C10 witness: a producer with a dynamic upper bound makes fusion
fail. -/
theorem C10_fusion_dynamic_bounds_witness :
    ((MixedVal.dynV 5 ∈ fuseProducerDynEx.lb ∨
      MixedVal.dynV 5 ∈ fuseProducerDynEx.ub ∨
      MixedVal.dynV 5 ∈ fuseProducerDynEx.step) ∧
     fuseForallIntoSlice fuseProducerDynEx fuseConsumerEx fuseChainEx =
       .error ()) := by
  refine ⟨by decide, ?_⟩
  exact C10_fusion_dynamic_bounds fuseProducerDynEx fuseConsumerEx fuseChainEx
    (Or.inl ⟨.dynV 5, by decide, 5, rfl⟩)

/-- C7: lowering a ShuffleRegion emits, in order, one insertion of the
source slice into the destination at the declared offsets/sizes/strides,
one write-side barrier over the inserted value, the inlined body with the
block argument replaced by the write barrier's result, and one read-side
barrier over the yielded value, which replaces the shuffle's result; for
an identity body (no operations, yielding the block argument) nothing is
inlined and the read barrier's operand is the write barrier's result. -/
theorem C7_lower_shuffle (s : ShuffleTensorOp) :
    (lowerShuffleTensor s).insertSource = s.source ∧
    (lowerShuffleTensor s).insertDest = s.dest ∧
    (lowerShuffleTensor s).insertOffsets = s.offsets ∧
    (lowerShuffleTensor s).insertSizes = s.sizes ∧
    (lowerShuffleTensor s).insertStrides = s.strides ∧
    (lowerShuffleTensor s).writeBarrierInput = .inserted ∧
    (lowerShuffleTensor s).inlinedOps =
      s.body.ops.map (fun operands => operands.map substBody) ∧
    (lowerShuffleTensor s).readBarrierInput = substBody s.body.yield ∧
    (lowerShuffleTensor s).resultReplacement = .rbar ∧
    (lowerShuffleTensor s).trace =
      [.insertSlice, .writeBarrier] ++
        s.body.ops.map (fun _ => .inlinedOp) ++ [.readBarrier] ∧
    (s.body.ops = [] → s.body.yield = .arg →
      (lowerShuffleTensor s).inlinedOps = [] ∧
      (lowerShuffleTensor s).readBarrierInput = .wbar) := by
  refine ⟨rfl, rfl, rfl, rfl, rfl, rfl, rfl, rfl, rfl, rfl, ?_⟩
  intro hops hyield
  constructor
  · show s.body.ops.map _ = []
    rw [hops]
    rfl
  · show substBody s.body.yield = .wbar
    rw [hyield]
    rfl

/-- C7 witness: the identity shuffle's lowering inlines nothing and feeds
the write barrier straight into the read barrier. -/
theorem C7_lower_shuffle_witness :
    (idShuffleEx.body.ops = [] ∧ idShuffleEx.body.yield = .arg) ∧
    ((lowerShuffleTensor idShuffleEx).inlinedOps = [] ∧
     (lowerShuffleTensor idShuffleEx).readBarrierInput = .wbar) := by
  refine ⟨⟨rfl, rfl⟩, ?_⟩
  exact (C7_lower_shuffle idShuffleEx).2.2.2.2.2.2.2.2.2.2 rfl rfl

theorem ratio_none_of_nondvd (shape sub : List Int)
    (hlen : shape.length = sub.length) (i : Nat) (hi : i < shape.length)
    (hnd : ¬ (sub.getD i 1 ∣ shape.getD i 0)) :
    computeShapeRatio shape sub = none := by
  unfold computeShapeRatio
  rw [if_neg (by omega)]
  have hz : shape.length - sub.length = 0 := by omega
  rw [hz, List.drop_zero]
  have hi2 : i < sub.length := by omega
  have hiz : i < (shape.zip sub).length := by
    rw [List.length_zip]; omega
  have hmem : (shape.get ⟨i, hi⟩, sub.get ⟨i, hi2⟩) ∈ shape.zip sub := by
    have hg : (shape.zip sub).get ⟨i, hiz⟩ =
        (shape.get ⟨i, hi⟩, sub.get ⟨i, hi2⟩) :=
      List.getElem_zip
    rw [← hg]
    exact List.get_mem (shape.zip sub) i hiz
  have hnz : (shape.get ⟨i, hi⟩).tmod (sub.get ⟨i, hi2⟩) ≠ 0 := by
    intro hzz
    apply hnd
    rw [List.getD_eq_getElem sub 1 hi2, List.getD_eq_getElem shape 0 hi]
    exact Int.dvd_iff_tmod_eq_zero.mpr hzz
  have hall : ((shape.zip sub).all (fun p => p.1.tmod p.2 == 0)) = false := by
    cases hq : (shape.zip sub).all (fun p => p.1.tmod p.2 == 0) with
    | false => rfl
    | true =>
      have := List.all_eq_true.mp hq _ hmem
      exact absurd (by simpa using this) hnz
  rw [if_neg (by simp [hall])]

theorem unroll_error_of_ratio_none (options : UnrollOptions)
    (op : MultiMmaOp) (boundsM : List MSize) (target : List Int)
    (hb : op.getIterationBounds = some boundsM)
    (hn : options.nativeShape op = some target)
    (hratio : computeShapeRatio (boundsM.map MSize.toInt) target = none) :
    ∃ msg, unrollMultiMma options op = .error msg := by
  rcases hF : options.filterConstraint with - | f
  · refine ⟨"operation unroll shape not divisible by target shape", ?_⟩
    simp [unrollMultiMma, hF, MultiMmaOp.getShapeForUnroll, hb, hn, hratio]
  · cases hfo : f op with
    | false =>
      refine ⟨"unrolling filter", ?_⟩
      simp [unrollMultiMma, hF, hfo]
    | true =>
      refine ⟨"operation unroll shape not divisible by target shape", ?_⟩
      simp [unrollMultiMma, hF, hfo, MultiMmaOp.getShapeForUnroll, hb, hn,
        hratio]

theorem unroll_error_of_ratio_ones (options : UnrollOptions)
    (op : MultiMmaOp) (boundsM : List MSize) (target : List Int)
    (ratio : List Int)
    (hb : op.getIterationBounds = some boundsM)
    (hn : options.nativeShape op = some target)
    (hratio : computeShapeRatio (boundsM.map MSize.toInt) target = some ratio)
    (hones : ∀ x ∈ ratio, x = 1) :
    ∃ msg, unrollMultiMma options op = .error msg := by
  have hall : ratio.all (· = 1) = true :=
    List.all_eq_true.mpr (fun x hx => by simpa using hones x hx)
  rcases hF : options.filterConstraint with - | f
  · refine ⟨"operation already unrolled to native shape", ?_⟩
    simp [unrollMultiMma, hF, MultiMmaOp.getShapeForUnroll, hb, hn, hratio,
      hall]
  · cases hfo : f op with
    | false =>
      refine ⟨"unrolling filter", ?_⟩
      simp [unrollMultiMma, hF, hfo]
    | true =>
      refine ⟨"operation already unrolled to native shape", ?_⟩
      simp [unrollMultiMma, hF, hfo, MultiMmaOp.getShapeForUnroll, hb, hn,
        hratio, hall]

/-- C4: the unroll pattern fails as a non-fatal match failure — in the
embedding a failed match returns an error carrying no rewrite, leaving
the operation untouched — whenever some iteration bound is not exactly
divisible by the target native shape entry, and whenever the
per-dimension shape ratio is all ones; a non-divisible ratio is never
rounded, since the ratio computation itself refuses it. -/
theorem C4_unroll_failure (options : UnrollOptions) (op : MultiMmaOp)
    (boundsM : List MSize) (target : List Int)
    (hb : op.getIterationBounds = some boundsM)
    (hn : options.nativeShape op = some target)
    (hlen : target.length = boundsM.length)
    (h : (∃ i, i < boundsM.length ∧
        ¬ (target.getD i 1 ∣ (boundsM.map MSize.toInt).getD i 0)) ∨
      (∃ ratio, computeShapeRatio (boundsM.map MSize.toInt) target =
          some ratio ∧ ∀ x ∈ ratio, x = 1)) :
    ∃ msg, unrollMultiMma options op = .error msg := by
  rcases h with ⟨i, hi, hnd⟩ | ⟨ratio, hratio, hones⟩
  · refine unroll_error_of_ratio_none options op boundsM target hb hn ?_
    exact ratio_none_of_nondvd (boundsM.map MSize.toInt) target
      (by simp [hlen]) i (by simpa using hi) hnd
  · exact unroll_error_of_ratio_ones options op boundsM target ratio hb hn
      hratio hones

/-- C4 witness: unrolling the 2-by-2 example toward target shape (3, 1)
fails, 3 not dividing 2. -/
theorem C4_unroll_failure_witness :
    (stdMmaOp.getIterationBounds = some [.st 2, .st 2] ∧
     ¬ ((3 : Int) ∣ 2)) ∧
    (∃ msg, unrollMultiMma unrollOptsNonDvd stdMmaOp = .error msg) := by
  refine ⟨⟨rfl, by decide⟩, ?_⟩
  exact C4_unroll_failure unrollOptsNonDvd stdMmaOp [.st 2, .st 2] [3, 1]
    rfl rfl rfl (Or.inl ⟨0, by decide, by decide⟩)

/-- C6: unit-dimension folding applies exactly to non-tensor-semantics
operations whose derived bounds exist, are non-empty and are all ones;
whenever it applies and every operand's outer rank is 2, it drops exactly
2 leading dimensions from each operand, re-issues the MultiMma with three
empty indexing maps and an empty iterator list, and broadcasts the
rank-reduced result back to the original result type. -/
theorem C6_unit_dim_folding (op : MultiMmaOp) :
    ((∃ r, dropMultiMmaUnitDims op = .ok r) ↔
      (op.hasTensorSemantics = false ∧
       ∃ bounds, op.getIterationBounds = some bounds ∧ bounds ≠ [] ∧
         ∀ b ∈ bounds, b = .st 1)) ∧
    (∀ r, dropMultiMmaUnitDims op = .ok r →
      outerRankOf (op.mapOf 0) = 2 → outerRankOf (op.mapOf 1) = 2 →
      outerRankOf (op.mapOf 2) = 2 →
      r.lhsDropped = 2 ∧ r.rhsDropped = 2 ∧ r.accDropped = 2 ∧
      r.newOp.lhsTy.shape = op.lhsTy.shape.drop 2 ∧
      r.newOp.rhsTy.shape = op.rhsTy.shape.drop 2 ∧
      r.newOp.accTy.shape = op.accTy.shape.drop 2 ∧
      r.newOp.indexingMaps = [emptyAffineMap, emptyAffineMap, emptyAffineMap] ∧
      r.newOp.iteratorTypes = [] ∧
      r.broadcastResultTy = op.getResultType) := by
  cases hT : op.hasTensorSemantics with
  | true =>
    constructor
    · constructor
      · rintro ⟨r, hr⟩
        simp [dropMultiMmaUnitDims, hT] at hr
      · rintro ⟨hf, -⟩
        exact Bool.noConfusion hf
    · intro r hr
      simp [dropMultiMmaUnitDims, hT] at hr
  | false =>
    rcases hG : op.getIterationBounds with - | bounds
    · constructor
      · constructor
        · rintro ⟨r, hr⟩
          simp [dropMultiMmaUnitDims, hT, hG] at hr
        · rintro ⟨-, bounds, hb, -⟩
          exact Option.noConfusion hb
      · intro r hr
        simp [dropMultiMmaUnitDims, hT, hG] at hr
    · cases hE : bounds.isEmpty with
      | true =>
        have hnil : bounds = [] := List.isEmpty_iff.mp hE
        constructor
        · constructor
          · rintro ⟨r, hr⟩
            simp [dropMultiMmaUnitDims, hT, hG, hE] at hr
          · rintro ⟨-, bounds', hb, hne, -⟩
            obtain rfl := Option.some.inj hb
            exact absurd hnil hne
        · intro r hr
          simp [dropMultiMmaUnitDims, hT, hG, hE] at hr
      | false =>
        cases hA : bounds.all (· = .st 1) with
        | false =>
          constructor
          · constructor
            · rintro ⟨r, hr⟩
              simp [dropMultiMmaUnitDims, hT, hG, hE, hA] at hr
            · rintro ⟨-, bounds', hb, -, hall⟩
              obtain rfl := Option.some.inj hb
              have hAt : bounds.all (· = .st 1) = true :=
                List.all_eq_true.mpr (fun x hx => by simpa using hall x hx)
              rw [hA] at hAt
              exact Bool.noConfusion hAt
          · intro r hr
            simp [dropMultiMmaUnitDims, hT, hG, hE, hA] at hr
        | true =>
          constructor
          · constructor
            · rintro -
              refine ⟨rfl, bounds, rfl, ?_, ?_⟩
              · intro hnil
                rw [hnil] at hE
                exact Bool.noConfusion hE
              · intro b hb
                simpa using List.all_eq_true.mp hA b hb
            · rintro -
              refine ⟨{ lhsDropped := outerRankOf (op.mapOf 0)
                        rhsDropped := outerRankOf (op.mapOf 1)
                        accDropped := outerRankOf (op.mapOf 2)
                        newOp :=
                          { lhsTy := dropLeadDimsTy op.lhsTy
                              (outerRankOf (op.mapOf 0))
                            rhsTy := dropLeadDimsTy op.rhsTy
                              (outerRankOf (op.mapOf 1))
                            accTy := dropLeadDimsTy op.accTy
                              (outerRankOf (op.mapOf 2))
                            indexingMaps := [emptyAffineMap, emptyAffineMap,
                              emptyAffineMap]
                            iteratorTypes := []
                            kind := op.kind }
                        broadcastResultTy := op.getResultType }, ?_⟩
              simp [dropMultiMmaUnitDims, hT, hG, hE, hA]
          · intro r hr
            simp only [dropMultiMmaUnitDims, hT, hG, hE, hA] at hr
            simp only [Bool.false_eq_true, if_false, List.isEmpty_eq_true,
              Bool.not_true] at hr
            intro h0 h1 h2
            obtain rfl := Except.ok.inj hr
            refine ⟨h0, h1, h2, ?_, ?_, ?_, rfl, rfl, rfl⟩
            · show op.lhsTy.shape.drop (outerRankOf (op.mapOf 0)) = _
              rw [h0]
            · show op.rhsTy.shape.drop (outerRankOf (op.mapOf 1)) = _
              rw [h1]
            · show op.accTy.shape.drop (outerRankOf (op.mapOf 2)) = _
              rw [h2]

/-- C6 witness: the example with all-ones bounds and outer rank 2 folds,
dropping 2 leading dimensions per operand. -/
theorem C6_unit_dim_folding_witness :
    (dropMultiMmaUnitDims unitDimsOp =
      .ok ((dropMultiMmaUnitDims unitDimsOp).toOption.getD
        { lhsDropped := 0, rhsDropped := 0, accDropped := 0
          newOp := unitDimsOp, broadcastResultTy := unitDimsOp.accTy }) ∧
     outerRankOf (unitDimsOp.mapOf 0) = 2) ∧
    (((dropMultiMmaUnitDims unitDimsOp).toOption.getD
        { lhsDropped := 0, rhsDropped := 0, accDropped := 0
          newOp := unitDimsOp
          broadcastResultTy := unitDimsOp.accTy }).lhsDropped = 2 ∧
     ((dropMultiMmaUnitDims unitDimsOp).toOption.getD
        { lhsDropped := 0, rhsDropped := 0, accDropped := 0
          newOp := unitDimsOp
          broadcastResultTy := unitDimsOp.accTy }).newOp.iteratorTypes = []) := by
  refine ⟨⟨rfl, rfl⟩, ?_⟩
  obtain ⟨h1, -, -, -, -, -, -, h8, -⟩ :=
    (C6_unit_dim_folding unitDimsOp).2 _ rfl rfl rfl rfl
  exact ⟨h1, h8⟩

theorem boundsGo_spec (A R : List MSize) (m0 m2 : AffineMap) :
    ∀ (its : List IterKind) (i : Nat) (bs : List MSize),
      boundsGo A R m0 m2 i its = some bs →
      bs.length = its.length ∧
      ∀ j, j < its.length →
        (its.getD j .parallel = .reduction →
          ∃ p, idxOfExpr m0.results (.dim (i + j)) = some p ∧
            bs.getD j (.st 0) = A.getD p (.st 0)) ∧
        (its.getD j .parallel = .parallel →
          ∃ p, idxOfExpr m2.results (.dim (i + j)) = some p ∧
            bs.getD j (.st 0) = R.getD p (.st 0)) := by
  intro its
  induction its with
  | nil =>
    intro i bs h
    obtain rfl : ([] : List MSize) = bs := Option.some.inj h
    exact ⟨rfl, fun j hj => absurd hj (by simp)⟩
  | cons it rest ih =>
    intro i bs h
    rcases hone : boundsOne A R m0 m2 i it with - | b
    · rw [boundsGo, hone] at h
      exact Option.noConfusion h
    rcases hrec : boundsGo A R m0 m2 (i + 1) rest with - | bs'
    · rw [boundsGo, hone, hrec] at h
      exact Option.noConfusion h
    rw [boundsGo, hone, hrec] at h
    obtain rfl : b :: bs' = bs := Option.some.inj h
    obtain ⟨hlen, hspec⟩ := ih (i + 1) bs' hrec
    refine ⟨by simp [hlen], ?_⟩
    intro j hj
    cases j with
    | zero =>
      constructor
      · intro hred
        have hit : it = .reduction := by simpa using hred
        subst hit
        rcases hx : idxOfExpr m0.results (.dim i) with - | p
        · rw [boundsOne, hx] at hone
          exact Option.noConfusion hone
        · rw [boundsOne, hx] at hone
          refine ⟨p, by simpa using hx, ?_⟩
          have : some (A.getD p (.st 0)) = some b := by simpa using hone
          simpa using (Option.some.inj this).symm
      · intro hpar
        have hit : it = .parallel := by simpa using hpar
        subst hit
        rcases hx : idxOfExpr m2.results (.dim i) with - | p
        · rw [boundsOne, hx] at hone
          exact Option.noConfusion hone
        · rw [boundsOne, hx] at hone
          refine ⟨p, by simpa using hx, ?_⟩
          have : some (R.getD p (.st 0)) = some b := by simpa using hone
          simpa using (Option.some.inj this).symm
    | succ k =>
      have hk : k < rest.length := by simpa using hj
      have hadd : i + (k + 1) = (i + 1) + k := by omega
      obtain ⟨hr1, hr2⟩ := hspec k hk
      constructor
      · intro hred
        rw [hadd]
        exact hr1 (by simpa using hred)
      · intro hpar
        rw [hadd]
        exact hr2 (by simpa using hpar)

/-- C5: the derived iteration-bounds sequence has one entry per iterator
position in declared order; the bound of a reduction-kind position is the
lhs shape entry at the lhs map output matching that dimension, and the
bound of a parallel-kind position is the result (accumulator) shape entry
at the accumulator map output matching that dimension. -/
theorem C5_iteration_bounds (op : MultiMmaOp) (bs : List MSize)
    (h : op.getIterationBounds = some bs) :
    bs.length = op.iteratorTypes.length ∧
    ∀ j, j < op.iteratorTypes.length →
      (op.iteratorTypes.getD j .parallel = .reduction →
        ∃ p, idxOfExpr (op.mapOf 0).results (.dim j) = some p ∧
          bs.getD j (.st 0) = op.lhsTy.shape.getD p (.st 0)) ∧
      (op.iteratorTypes.getD j .parallel = .parallel →
        ∃ p, idxOfExpr (op.mapOf 2).results (.dim j) = some p ∧
          bs.getD j (.st 0) = op.getResultType.shape.getD p (.st 0)) := by
  obtain ⟨hlen, hspec⟩ := boundsGo_spec op.lhsTy.shape op.getResultType.shape
    (op.mapOf 0) (op.mapOf 2) op.iteratorTypes 0 bs h
  refine ⟨hlen, ?_⟩
  intro j hj
  obtain ⟨h1, h2⟩ := hspec j hj
  rw [Nat.zero_add] at h1 h2
  exact ⟨h1, h2⟩

/-- C5 witness: the bounds of the standard example are (2, 2), read from
the accumulator shape for the parallel dimension and from the lhs shape
for the reduction dimension. -/
theorem C5_iteration_bounds_witness :
    (stdMmaOp.getIterationBounds = some [.st 2, .st 2]) ∧
    ([MSize.st 2, MSize.st 2].length = stdMmaOp.iteratorTypes.length) := by
  refine ⟨rfl, ?_⟩
  exact (C5_iteration_bounds stdMmaOp [.st 2, .st 2] rfl).1

theorem checkMapOperand_ok_iff (n : Nat) (m : AffineMap) (t : ShapedTy) :
    checkMapOperand n m t = .ok () ↔
      (m.numSymbols = 0 ∧ m.numDims = n ∧ m.results.length < t.rank ∧
       m.isProjectedPermutation = true ∧
       ∀ s ∈ t.shape.drop m.results.length, s.isDynamic = false) := by
  unfold checkMapOperand
  simp [seqE_ok_iff, check_ok_iff, and_assoc]

theorem osmList_iff (bounds : List MSize) :
    ∀ (es : List AffineExpr) (ss : List MSize), es.length ≤ ss.length →
      (operandShapeMatches bounds es ss = true ↔
        ∀ j, j < es.length → ∃ p, es.getD j (.cst 0) = .dim p ∧
          ss.getD j (.st 0) = bounds.getD p (.st 0)) := by
  intro es
  induction es with
  | nil =>
    intro ss h
    constructor
    · intro _ j hj
      exact absurd hj (by simp)
    · intro _
      rfl
  | cons e es ih =>
    intro ss h
    cases ss with
    | nil => simp at h
    | cons s ss =>
      have hlen : es.length ≤ ss.length := by simpa using h
      cases e with
      | dim p =>
        rw [show operandShapeMatches bounds (.dim p :: es) (s :: ss) =
          ((s == bounds.getD p (.st 0)) &&
            operandShapeMatches bounds es ss) from rfl]
        simp only [Bool.and_eq_true, beq_iff_eq]
        constructor
        · rintro ⟨hhead, htail⟩ j hj
          cases j with
          | zero => exact ⟨p, rfl, by simpa using hhead⟩
          | succ k =>
            obtain ⟨q, hq, hv⟩ := (ih ss hlen).mp htail k (by simpa using hj)
            exact ⟨q, by simpa using hq, by simpa using hv⟩
        · intro hs
          constructor
          · obtain ⟨q, hq, hv⟩ := hs 0 (by simp)
            have hpq : AffineExpr.dim p = AffineExpr.dim q := by simpa using hq
            obtain rfl : p = q := by injection hpq
            simpa using hv
          · refine (ih ss hlen).mpr ?_
            intro k hk
            obtain ⟨q, hq, hv⟩ := hs (k + 1)
              (by simp only [List.length_cons]; omega)
            exact ⟨q, by simpa using hq, by simpa using hv⟩
      | cst v =>
        rw [show operandShapeMatches bounds (.cst v :: es) (s :: ss) =
          (false && operandShapeMatches bounds es ss) from rfl]
        constructor
        · intro hm
          exact absurd hm (by simp)
        · intro hs
          obtain ⟨q, hq, -⟩ := hs 0 (by simp)
          exact absurd hq (by simp)

theorem operandShapeMatches_iff_spec (bounds : List MSize) (t : ShapedTy)
    (m : AffineMap) (h : m.results.length ≤ t.shape.length) :
    operandShapeMatches bounds m.results t.shape = true ↔
      specOuterShapeMatches bounds t m :=
  osmList_iff bounds m.results t.shape h

/-- C1: MultiMma verification succeeds exactly when all of the spec's
conditions hold: three maps, all projected permutations without symbols,
input counts equal to the iterator count, per-map output count strictly
below the operand rank with static trailing inner dimensions, successful
contraction-dimension inference, derivable iteration bounds matched
dimension-by-dimension by every operand's outer shape, and per-role
element types equal to the intrinsic kind's. -/
theorem C1_verify_iff (op : MultiMmaOp) :
    op.verify = .ok () ↔ op.verifySpec := by
  unfold MultiMmaOp.verify MultiMmaOp.verifySpec
  rcases hm : op.indexingMaps with - | ⟨m0, - | ⟨m1, - | ⟨m2, - | ⟨m3, rest⟩⟩⟩⟩
  · constructor
    · intro h
      exact absurd h (by simp)
    · rintro ⟨hlen, -⟩
      simp at hlen
  · constructor
    · intro h
      exact absurd h (by simp)
    · rintro ⟨hlen, -⟩
      simp at hlen
  · constructor
    · intro h
      exact absurd h (by simp)
    · rintro ⟨hlen, -⟩
      simp at hlen
  case cons.cons.cons.cons =>
    constructor
    · intro h
      exact absurd h (by simp)
    · rintro ⟨hlen, -⟩
      simp at hlen
  case cons.cons.cons.nil =>
    have hz : List.zip [m0, m1, m2] [op.lhsTy, op.rhsTy, op.accTy] =
        [(m0, op.lhsTy), (m1, op.rhsTy), (m2, op.accTy)] := rfl
    rcases hb : op.getIterationBounds with - | bounds
    · constructor
      · intro h
        obtain ⟨-, h⟩ := (seqE_ok_iff _ _).mp h
        obtain ⟨-, h⟩ := (seqE_ok_iff _ _).mp h
        obtain ⟨-, h⟩ := (seqE_ok_iff _ _).mp h
        obtain ⟨-, h⟩ := (seqE_ok_iff _ _).mp h
        exact Except.noConfusion h
      · rintro ⟨-, -, -, -, -, ⟨bounds, hbb, -⟩, -⟩
        exact Option.noConfusion hbb
    · constructor
      · intro h
        obtain ⟨hc0, h⟩ := (seqE_ok_iff _ _).mp h
        obtain ⟨hc1, h⟩ := (seqE_ok_iff _ _).mp h
        obtain ⟨hc2, h⟩ := (seqE_ok_iff _ _).mp h
        obtain ⟨hcinf, h⟩ := (seqE_ok_iff _ _).mp h
        obtain ⟨ho0, h⟩ := (seqE_ok_iff _ _).mp h
        obtain ⟨ho1, h⟩ := (seqE_ok_iff _ _).mp h
        obtain ⟨ho2, h⟩ := (seqE_ok_iff _ _).mp h
        obtain ⟨he0, h⟩ := (seqE_ok_iff _ _).mp h
        obtain ⟨he1, he2⟩ := (seqE_ok_iff _ _).mp h
        obtain ⟨s0, d0, r0, p0, y0⟩ := (checkMapOperand_ok_iff _ _ _).mp hc0
        obtain ⟨s1, d1, r1, p1, y1⟩ := (checkMapOperand_ok_iff _ _ _).mp hc1
        obtain ⟨s2, d2, r2, p2, y2⟩ := (checkMapOperand_ok_iff _ _ _).mp hc2
        have hinf := (check_ok_iff _ _).mp hcinf
        have hm0 := (check_ok_iff _ _).mp ho0
        have hm1 := (check_ok_iff _ _).mp ho1
        have hm2 := (check_ok_iff _ _).mp ho2
        have hel0 := (check_ok_iff _ _).mp he0
        have hel1 := (check_ok_iff _ _).mp he1
        have hel2 := (check_ok_iff _ _).mp he2
        refine ⟨rfl, ?_, ?_, ?_, hinf, ⟨bounds, rfl, ?_⟩,
          hel0.symm, hel1.symm, hel2.symm⟩
        · intro x hx
          rcases List.mem_cons.mp hx with rfl | hx
          · exact ⟨p0, s0⟩
          rcases List.mem_cons.mp hx with rfl | hx
          · exact ⟨p1, s1⟩
          rcases List.mem_cons.mp hx with rfl | hx
          · exact ⟨p2, s2⟩
          exact absurd hx (List.not_mem_nil _)
        · intro x hx
          rcases List.mem_cons.mp hx with rfl | hx
          · exact d0
          rcases List.mem_cons.mp hx with rfl | hx
          · exact d1
          rcases List.mem_cons.mp hx with rfl | hx
          · exact d2
          exact absurd hx (List.not_mem_nil _)
        · intro mt hmt
          rw [hz] at hmt
          rcases List.mem_cons.mp hmt with rfl | hmt
          · exact ⟨r0, y0⟩
          rcases List.mem_cons.mp hmt with rfl | hmt
          · exact ⟨r1, y1⟩
          rcases List.mem_cons.mp hmt with rfl | hmt
          · exact ⟨r2, y2⟩
          exact absurd hmt (List.not_mem_nil _)
        · intro mt hmt
          rw [hz] at hmt
          rcases List.mem_cons.mp hmt with rfl | hmt
          · exact (operandShapeMatches_iff_spec bounds op.lhsTy m0
              (le_of_lt r0)).mp hm0
          rcases List.mem_cons.mp hmt with rfl | hmt
          · exact (operandShapeMatches_iff_spec bounds op.rhsTy m1
              (le_of_lt r1)).mp hm1
          rcases List.mem_cons.mp hmt with rfl | hmt
          · exact (operandShapeMatches_iff_spec bounds op.accTy m2
              (le_of_lt r2)).mp hm2
          exact absurd hmt (List.not_mem_nil _)
      · rintro ⟨-, hps, hnd, hrk, hinf, ⟨bounds', hbb, hosm⟩,
          hel0, hel1, hel2⟩
        obtain rfl : bounds = bounds' := Option.some.inj hbb
        obtain ⟨p0, s0⟩ := hps m0 (by simp)
        obtain ⟨p1, s1⟩ := hps m1 (by simp)
        obtain ⟨p2, s2⟩ := hps m2 (by simp)
        have d0 := hnd m0 (by simp)
        have d1 := hnd m1 (by simp)
        have d2 := hnd m2 (by simp)
        obtain ⟨r0, y0⟩ := hrk (m0, op.lhsTy) (by rw [hz]; simp)
        obtain ⟨r1, y1⟩ := hrk (m1, op.rhsTy) (by rw [hz]; simp)
        obtain ⟨r2, y2⟩ := hrk (m2, op.accTy) (by rw [hz]; simp)
        have o0 := hosm (m0, op.lhsTy) (by rw [hz]; simp)
        have o1 := hosm (m1, op.rhsTy) (by rw [hz]; simp)
        have o2 := hosm (m2, op.accTy) (by rw [hz]; simp)
        refine (seqE_ok_iff _ _).mpr
          ⟨(checkMapOperand_ok_iff _ _ _).mpr ⟨s0, d0, r0, p0, y0⟩, ?_⟩
        refine (seqE_ok_iff _ _).mpr
          ⟨(checkMapOperand_ok_iff _ _ _).mpr ⟨s1, d1, r1, p1, y1⟩, ?_⟩
        refine (seqE_ok_iff _ _).mpr
          ⟨(checkMapOperand_ok_iff _ _ _).mpr ⟨s2, d2, r2, p2, y2⟩, ?_⟩
        refine (seqE_ok_iff _ _).mpr ⟨(check_ok_iff _ _).mpr hinf, ?_⟩
        refine (seqE_ok_iff _ _).mpr ⟨(check_ok_iff _ _).mpr
          ((operandShapeMatches_iff_spec _ op.lhsTy m0
            (le_of_lt r0)).mpr o0), ?_⟩
        refine (seqE_ok_iff _ _).mpr ⟨(check_ok_iff _ _).mpr
          ((operandShapeMatches_iff_spec _ op.rhsTy m1
            (le_of_lt r1)).mpr o1), ?_⟩
        refine (seqE_ok_iff _ _).mpr ⟨(check_ok_iff _ _).mpr
          ((operandShapeMatches_iff_spec _ op.accTy m2
            (le_of_lt r2)).mpr o2), ?_⟩
        refine (seqE_ok_iff _ _).mpr ⟨(check_ok_iff _ _).mpr hel0.symm, ?_⟩
        refine (seqE_ok_iff _ _).mpr ⟨(check_ok_iff _ _).mpr hel1.symm, ?_⟩
        exact (check_ok_iff _ _).mpr hel2.symm

/-- C1 witness: the standard example verifies and satisfies every spec
conjunct. -/
theorem C1_verify_iff_witness :
    stdMmaOp.verify = .ok () ∧ stdMmaOp.verifySpec :=
  ⟨rfl, (C1_verify_iff stdMmaOp).mp rfl⟩

theorem cacheFind_insert (c : List (List Int × Nat)) (k : List Int)
    (v : Nat) (k' : List Int) :
    cacheFind (cacheInsert c k v) k' =
      if k' = k then some v else cacheFind c k' := by
  induction c with
  | nil =>
    by_cases hk : k' = k
    · subst hk
      simp [cacheInsert, cacheFind]
    · rw [if_neg hk]
      show (if k = k' then some v else none) = cacheFind [] k'
      rw [if_neg (fun he => hk he.symm)]
      rfl
  | cons hd tl ih =>
    obtain ⟨k0, v0⟩ := hd
    by_cases h0 : k0 = k
    · subst h0
      rw [show cacheInsert ((k0, v0) :: tl) k0 v = (k0, v) :: tl from by
        simp [cacheInsert]]
      by_cases hk : k' = k0
      · subst hk
        simp [cacheFind]
      · rw [if_neg hk]
        show (if k0 = k' then some v else cacheFind tl k') = _
        rw [if_neg (fun he => hk he.symm)]
        show _ = (if k0 = k' then some v0 else cacheFind tl k')
        rw [if_neg (fun he => hk he.symm)]
    · rw [show cacheInsert ((k0, v0) :: tl) k v =
        (k0, v0) :: cacheInsert tl k v from by simp [cacheInsert, h0]]
      show (if k0 = k' then some v0 else cacheFind (cacheInsert tl k v) k') = _
      by_cases hk0 : k0 = k'
      · subst hk0
        rw [if_pos rfl, if_neg h0]
        show _ = (if k0 = k0 then some v0 else cacheFind tl k0)
        rw [if_pos rfl]
      · rw [if_neg hk0, ih]
        by_cases hk : k' = k
        · rw [if_pos hk, if_pos hk]
        · rw [if_neg hk, if_neg hk]
          show _ = (if k0 = k' then some v0 else cacheFind tl k')
          rw [if_neg hk0]

theorem mem_cacheInsert (c : List (List Int × Nat)) (k : List Int) (v : Nat)
    (b : List Int × Nat) (hb : b ∈ cacheInsert c k v) : b.1 = k ∨ b ∈ c := by
  induction c with
  | nil =>
    rcases List.mem_singleton.mp hb with rfl
    exact Or.inl rfl
  | cons hd tl ih =>
    obtain ⟨k0, v0⟩ := hd
    by_cases h0 : k0 = k
    · subst h0
      rw [show cacheInsert ((k0, v0) :: tl) k0 v = (k0, v) :: tl from by
        simp [cacheInsert]] at hb
      rcases List.mem_cons.mp hb with rfl | hb
      · exact Or.inl rfl
      · exact Or.inr (List.mem_cons_of_mem _ hb)
    · rw [show cacheInsert ((k0, v0) :: tl) k v =
        (k0, v0) :: cacheInsert tl k v from by simp [cacheInsert, h0]] at hb
      rcases List.mem_cons.mp hb with rfl | hb
      · exact Or.inr (List.mem_cons_self _ _)
      · rcases ih hb with hk | hmem
        · exact Or.inl hk
        · exact Or.inr (List.mem_cons_of_mem _ hmem)

theorem cacheInsert_pairwise (c : List (List Int × Nat)) (k : List Int)
    (v : Nat) (h : c.Pairwise (fun a b => a.1 ≠ b.1)) :
    (cacheInsert c k v).Pairwise (fun a b => a.1 ≠ b.1) := by
  induction c with
  | nil => simp [cacheInsert]
  | cons hd tl ih =>
    obtain ⟨k0, v0⟩ := hd
    rw [List.pairwise_cons] at h
    by_cases h0 : k0 = k
    · subst h0
      rw [show cacheInsert ((k0, v0) :: tl) k0 v = (k0, v) :: tl from by
        simp [cacheInsert]]
      exact List.pairwise_cons.mpr ⟨h.1, h.2⟩
    · rw [show cacheInsert ((k0, v0) :: tl) k v =
        (k0, v0) :: cacheInsert tl k v from by simp [cacheInsert, h0]]
      refine List.pairwise_cons.mpr ⟨?_, ih h.2⟩
      intro b hb
      rcases mem_cacheInsert tl k v b hb with hk | hmem
      · rw [hk]
        exact h0
      · exact h.1 b hmem

theorem cacheFind_of_mem (c : List (List Int × Nat))
    (hd : c.Pairwise (fun a b => a.1 ≠ b.1)) (k : List Int) (v : Nat)
    (hm : (k, v) ∈ c) : cacheFind c k = some v := by
  induction c with
  | nil => exact absurd hm (List.not_mem_nil _)
  | cons hd0 tl ih =>
    obtain ⟨k0, v0⟩ := hd0
    rw [List.pairwise_cons] at hd
    rcases List.mem_cons.mp hm with he | hm'
    · injection he with h1 h2
      subst h1
      subst h2
      show (if k = k then some v else cacheFind tl k) = some v
      rw [if_pos rfl]
    · show (if k0 = k then some v0 else cacheFind tl k) = some v
      rw [if_neg (hd.1 (k, v) hm'), ih hd.2 hm']

theorem lastWith_snoc (tiles : List TileInfo) (t : TileInfo) (k : List Int) :
    lastWith (tiles ++ [t]) k =
      if t.accOffsets = k then some tiles.length else lastWith tiles k := by
  unfold lastWith
  have hlen : (tiles ++ [t]).length = tiles.length + 1 := by simp
  rw [hlen, List.range_succ, List.foldl_append]
  simp only [List.foldl_cons, List.foldl_nil]
  have hget : (tiles ++ [t]).getD tiles.length dfltTile = t := by
    rw [List.getD_append_right _ _ _ _ (le_refl _)]
    simp
  rw [hget]
  have hext : (List.range tiles.length).foldl
      (fun acc i => if ((tiles ++ [t]).getD i dfltTile).accOffsets = k
        then some i else acc) none =
      (List.range tiles.length).foldl
      (fun acc i => if (tiles.getD i dfltTile).accOffsets = k
        then some i else acc) none :=
    List.foldl_ext _ _ none
      (fun a i hi => by
        rw [List.getD_append _ _ _ _ (List.mem_range.mp hi)])
  rw [hext]

theorem lastWith_some_spec (tiles : List TileInfo) (k : List Int) :
    ∀ v : Nat, lastWith tiles k = some v →
      v < tiles.length ∧ (tiles.getD v dfltTile).accOffsets = k ∧
      ∀ w, v < w → w < tiles.length →
        (tiles.getD w dfltTile).accOffsets ≠ k := by
  induction tiles using List.reverseRecOn with
  | nil =>
    intro v h
    exact Option.noConfusion h
  | append_singleton ts t ih =>
    intro v h
    rw [lastWith_snoc] at h
    by_cases ht : t.accOffsets = k
    · rw [if_pos ht] at h
      obtain rfl : ts.length = v := Option.some.inj h
      refine ⟨by simp, ?_, ?_⟩
      · rw [List.getD_append_right _ _ _ _ (le_refl _)]
        simpa using ht
      · intro w hw1 hw2
        simp at hw2
        omega
    · rw [if_neg ht] at h
      obtain ⟨hv, hacc, hlast⟩ := ih v h
      refine ⟨by simp; omega, ?_, ?_⟩
      · rw [List.getD_append _ _ _ _ hv]
        exact hacc
      · intro w hw1 hw2
        simp at hw2
        rcases Nat.lt_or_ge w ts.length with hlt | hge
        · rw [List.getD_append _ _ _ _ hlt]
          exact hlast w hw1 hlt
        · obtain rfl : w = ts.length := by omega
          rw [List.getD_append_right _ _ _ _ (le_refl _)]
          simpa using ht

theorem lastWith_none_spec (tiles : List TileInfo) (k : List Int) :
    lastWith tiles k = none →
      ∀ w, w < tiles.length → (tiles.getD w dfltTile).accOffsets ≠ k := by
  induction tiles using List.reverseRecOn with
  | nil =>
    intro _ w hw
    exact absurd hw (by simp)
  | append_singleton ts t ih =>
    intro h w hw
    rw [lastWith_snoc] at h
    by_cases ht : t.accOffsets = k
    · rw [if_pos ht] at h
      exact Option.noConfusion h
    · rw [if_neg ht] at h
      simp at hw
      rcases Nat.lt_or_ge w ts.length with hlt | hge
      · rw [List.getD_append _ _ _ _ hlt]
        exact ih h w hlt
      · obtain rfl : w = ts.length := by omega
        rw [List.getD_append_right _ _ _ _ (le_refl _)]
        simpa using ht

theorem unrollStep_eq (op : MultiMmaOp) (target : List Int)
    (tiles : List TileInfo) (cache : List (List Int × Nat))
    (offs : List Int) :
    unrollStep op target (tiles, cache) offs =
      (tiles ++ [mkTile op target cache offs],
       cacheInsert cache (applyPermutationMap (op.mapOf 2) offs)
         tiles.length) := rfl

theorem unrollStep_preserves (op : MultiMmaOp) (target : List Int)
    (tiles : List TileInfo) (cache : List (List Int × Nat))
    (offs : List Int) (h : StateOK op target (tiles, cache)) :
    StateOK op target (unrollStep op target (tiles, cache) offs) := by
  obtain ⟨hfind, hpw, htiles⟩ := h
  rw [unrollStep_eq]
  set accOff := applyPermutationMap (op.mapOf 2) offs with haccOff
  set tile : TileInfo := mkTile op target cache offs with htile
  refine ⟨?_, ?_, ?_⟩
  · intro k
    show cacheFind (cacheInsert cache accOff tiles.length) k =
      lastWith (tiles ++ [tile]) k
    rw [cacheFind_insert, lastWith_snoc]
    show (if k = accOff then some tiles.length else cacheFind cache k) =
      if accOff = k then some tiles.length else lastWith tiles k
    by_cases hk : k = accOff
    · rw [if_pos hk, if_pos hk.symm]
    · rw [if_neg hk, if_neg (fun he => hk he.symm), hfind]
  · exact cacheInsert_pairwise cache accOff tiles.length hpw
  · intro j hj
    have hlen : (tiles ++ [tile]).length = tiles.length + 1 := by simp
    rcases Nat.lt_or_ge j tiles.length with hlt | hge
    · obtain ⟨h1, h2, h3, h4, h5⟩ := htiles j hlt
      have hgd : (tiles ++ [tile]).getD j dfltTile = tiles.getD j dfltTile :=
        List.getD_append _ _ _ _ hlt
      have htk : (tiles ++ [tile]).take j = tiles.take j :=
        List.take_append_of_le_length (le_of_lt hlt)
      unfold TileOK
      rw [hgd, htk]
      exact ⟨h1, h2, h3, h4, h5⟩
    · rw [hlen] at hj
      obtain rfl : j = tiles.length := by omega
      have hgd : (tiles ++ [tile]).getD tiles.length dfltTile = tile := by
        rw [List.getD_append_right _ _ _ _ (le_refl _)]
        simp
      have htk : (tiles ++ [tile]).take tiles.length = tiles :=
        List.take_left tiles [tile]
      unfold TileOK
      rw [hgd, htk]
      refine ⟨rfl, rfl, rfl, ?_, rfl⟩
      show (match cacheFind cache accOff with
        | some w => AccSource.memo w
        | none => AccSource.fresh accOff) =
        (match lastWith tiles accOff with
         | some w => AccSource.memo w
         | none => AccSource.fresh accOff)
      rw [hfind]

theorem StateOK_init (op : MultiMmaOp) (target : List Int) :
    StateOK op target ([], []) := by
  refine ⟨fun k => rfl, List.Pairwise.nil, fun j hj => absurd hj (by simp)⟩

theorem foldl_unrollStep_ok (op : MultiMmaOp) (target : List Int) :
    ∀ (offsList : List (List Int))
      (s : List TileInfo × List (List Int × Nat)),
      StateOK op target s →
      StateOK op target (offsList.foldl (unrollStep op target) s) := by
  intro offsList
  induction offsList with
  | nil =>
    intro s h
    exact h
  | cons o os ih =>
    intro s h
    rw [List.foldl_cons]
    obtain ⟨tiles, cache⟩ := s
    exact ih _ (unrollStep_preserves op target tiles cache o h)

theorem applyPermutationMap_congr (m : AffineMap) (o1 o2 : List Int)
    (h : ∀ p, mapRefersTo m p = true → o1.getD p 0 = o2.getD p 0) :
    applyPermutationMap m o1 = applyPermutationMap m o2 := by
  unfold applyPermutationMap
  refine List.map_eq_map_iff.mpr ?_
  intro e he
  cases e with
  | dim p => exact h p (List.elem_eq_true_of_mem he)
  | cst v => rfl

theorem accMapAllParallel_spec (op : MultiMmaOp)
    (h : accMapAllParallel op = true) :
    ∀ p, mapRefersTo (op.mapOf 2) p = true →
      op.iteratorTypes.getD p .parallel = .parallel := by
  intro p hp
  have hmem : AffineExpr.dim p ∈ (op.mapOf 2).results :=
    List.mem_of_elem_eq_true hp
  have hall := List.all_eq_true.mp h _ hmem
  simpa using hall

theorem unroll_ok_inv (options : UnrollOptions) (op : MultiMmaOp)
    (r : UnrollResult) (h : unrollMultiMma options op = .ok r) :
    ∃ boundsM target,
      op.getIterationBounds = some boundsM ∧
      options.nativeShape op = some target ∧
      op.hasTensorSemantics = false ∧
      r.tiles = ((tileOffsetsEnum (boundsM.map MSize.toInt) target
        (getUnrollOrder op.iteratorTypes.length op options)).foldl
        (unrollStep op target) ([], [])).1 ∧
      r.assembled = ((tileOffsetsEnum (boundsM.map MSize.toInt) target
        (getUnrollOrder op.iteratorTypes.length op options)).foldl
        (unrollStep op target) ([], [])).2 ∧
      r.assemblyBase = ⟨op.accTy.shape, op.accTy.elem, false⟩ ∧
      r.insertOffsets = ((tileOffsetsEnum (boundsM.map MSize.toInt) target
        (getUnrollOrder op.iteratorTypes.length op options)).foldl
        (unrollStep op target) ([], [])).2.map
        (fun e => e.1 ++ List.replicate
          (innerShapeOf (op.mapOf 2) op.accTy).length 0) := by
  have hP : (match options.filterConstraint with
      | some f => f op
      | none => true) = true := by
    rcases hF : options.filterConstraint with - | f
    · rfl
    · cases hfo : f op with
      | true => exact hfo
      | false =>
        exfalso
        rw [show unrollMultiMma options op = .error "unrolling filter" from by
          simp [unrollMultiMma, hF, hfo]] at h
        exact Except.noConfusion h
  rcases hb : op.getIterationBounds with - | boundsM
  · exfalso
    simp [unrollMultiMma, hP, MultiMmaOp.getShapeForUnroll, hb] at h
  rcases hn : options.nativeShape op with - | target
  · exfalso
    simp [unrollMultiMma, hP, MultiMmaOp.getShapeForUnroll, hb, hn] at h
  rcases hratio : computeShapeRatio (boundsM.map MSize.toInt) target
      with - | ratio
  · exfalso
    simp [unrollMultiMma, hP, MultiMmaOp.getShapeForUnroll, hb, hn,
      hratio] at h
  cases hA : ratio.all (· = 1) with
  | true =>
    exfalso
    simp [unrollMultiMma, hP, MultiMmaOp.getShapeForUnroll, hb, hn, hratio,
      hA] at h
  | false =>
  cases hT : op.hasTensorSemantics with
  | true =>
    exfalso
    simp [unrollMultiMma, hP, MultiMmaOp.getShapeForUnroll, hb, hn, hratio,
      hA, hT] at h
  | false =>
  simp only [unrollMultiMma, hP, MultiMmaOp.getShapeForUnroll, hb, hn,
    hratio, hA, hT, Bool.not_true, Bool.false_eq_true, if_false,
    Bool.not_false, if_true, Except.ok.injEq] at h
  refine ⟨boundsM, target, rfl, rfl, rfl, ?_, ?_, ?_, ?_⟩ <;> rw [← h]

theorem getD_take_of_lt (l : List TileInfo) :
    ∀ (n w : Nat) (d : TileInfo), w < n →
      (l.take n).getD w d = l.getD w d := by
  induction l with
  | nil => intro n w d _; simp
  | cons x xs ih =>
    intro n w d h
    cases n with
    | zero => omega
    | succ m =>
      cases w with
      | zero => rfl
      | succ v => simpa using ih m v d (by omega)

/-- C2 (amended): during unrolling of an operation whose accumulator map
refers only to parallel-kind dimensions, any two tile coordinates that
differ only in reduction-kind dimensions project to identical
accumulator-space offsets; each tile's accumulator slice is the memoized
result of the latest earlier tile with the same accumulator offsets
(fresh from the original accumulator when there is none, the memo entry
being overwritten after each tile); and the replacement is assembled by
zero-initializing a buffer of the original accumulator's exact shape and
element type and inserting each memoized partial result at its
accumulator-space offset (padded with zeros over the inner dimensions),
each memoized entry being the latest tile at its offset.  The unamended
claim fails when a reduction-kind dimension appears in the accumulator
map; see the counterexample. -/
theorem C2_accumulator_memoization (options : UnrollOptions)
    (op : MultiMmaOp) (r : UnrollResult)
    (h : unrollMultiMma options op = .ok r)
    (hacc : accMapAllParallel op = true) :
    (∀ i j, i < r.tiles.length → j < r.tiles.length →
      (∀ d, (r.tiles.getD i dfltTile).offsets.getD d 0 ≠
          (r.tiles.getD j dfltTile).offsets.getD d 0 →
        op.iteratorTypes.getD d .parallel = .reduction) →
      (r.tiles.getD i dfltTile).accOffsets =
        (r.tiles.getD j dfltTile).accOffsets) ∧
    (∀ j, j < r.tiles.length →
      (r.tiles.getD j dfltTile).accSource =
        (match lastWith (r.tiles.take j)
            ((r.tiles.getD j dfltTile).accOffsets) with
         | some w => AccSource.memo w
         | none => AccSource.fresh ((r.tiles.getD j dfltTile).accOffsets)) ∧
      ∀ w, lastWith (r.tiles.take j)
          ((r.tiles.getD j dfltTile).accOffsets) = some w →
        w < j ∧ (r.tiles.getD w dfltTile).accOffsets =
          (r.tiles.getD j dfltTile).accOffsets) ∧
    (r.assemblyBase = ⟨op.accTy.shape, op.accTy.elem, false⟩ ∧
     r.insertOffsets = r.assembled.map (fun e => e.1 ++ List.replicate
       (innerShapeOf (op.mapOf 2) op.accTy).length 0) ∧
     ∀ e ∈ r.assembled, e.2 < r.tiles.length ∧
       (r.tiles.getD e.2 dfltTile).accOffsets = e.1 ∧
       ∀ w, e.2 < w → w < r.tiles.length →
         (r.tiles.getD w dfltTile).accOffsets ≠ e.1) := by
  obtain ⟨boundsM, target, hb, hn, hT, htiles, hassembled, hbase, hins⟩ :=
    unroll_ok_inv options op r h
  obtain ⟨hfind, hpw, hTok⟩ := foldl_unrollStep_ok op target
    (tileOffsetsEnum (boundsM.map MSize.toInt) target
      (getUnrollOrder op.iteratorTypes.length op options)) ([], [])
    (StateOK_init op target)
  rw [htiles, hassembled]
  refine ⟨?_, ?_, hbase, hins, ?_⟩
  · intro i j hi hj hdiff
    obtain ⟨-, -, hAi, -, -⟩ := hTok i hi
    obtain ⟨-, -, hAj, -, -⟩ := hTok j hj
    rw [hAi, hAj]
    apply applyPermutationMap_congr
    intro p hp
    by_contra hne
    have hred := hdiff p hne
    have hpar := accMapAllParallel_spec op hacc p hp
    rw [hred] at hpar
    exact IterKind.noConfusion hpar
  · intro j hj
    obtain ⟨-, -, -, hsrc, -⟩ := hTok j hj
    refine ⟨hsrc, ?_⟩
    intro w hw
    obtain ⟨hwlt, hwacc, -⟩ := lastWith_some_spec _ _ w hw
    have hwj : w < j := by
      have := List.length_take j _ ▸ hwlt
      simp only [List.length_take] at hwlt
      omega
    refine ⟨hwj, ?_⟩
    rw [← getD_take_of_lt _ j w dfltTile hwj]
    exact hwacc
  · intro e he
    obtain ⟨k, v⟩ := e
    have hf : cacheFind ((tileOffsetsEnum (boundsM.map MSize.toInt) target
        (getUnrollOrder op.iteratorTypes.length op options)).foldl
        (unrollStep op target) ([], [])).2 k = some v :=
      cacheFind_of_mem _ hpw k v he
    rw [hfind] at hf
    obtain ⟨hvlt, hvacc, hvlast⟩ := lastWith_some_spec _ _ v hf
    exact ⟨hvlt, hvacc, hvlast⟩

/-- C2 witness: the standard example's accumulator map is
parallel-dimension-only, its unroll succeeds, and the theorem applies;
in particular the assembly buffer has the accumulator's shape. -/
theorem C2_accumulator_memoization_witness :
    (unrollMultiMma unrollOptsOnes stdMmaOp = .ok stdUnrollRes ∧
     accMapAllParallel stdMmaOp = true) ∧
    stdUnrollRes.assemblyBase =
      ⟨stdMmaOp.accTy.shape, stdMmaOp.accTy.elem, false⟩ := by
  refine ⟨⟨rfl, by decide⟩, ?_⟩
  exact (C2_accumulator_memoization unrollOptsOnes stdMmaOp stdUnrollRes rfl
    (by decide)).2.2.1

/-- C2 counterexample: unrolling `cexAccOp` (whose reduction dimension d1
appears in the accumulator map) yields tiles at coordinates (0, 0) and
(0, 1) differing only in the reduction-kind dimension d1, yet their
accumulator-space offsets differ — the claim as stated is false. -/
theorem C2_accumulator_memoization_counterexample :
    (unrollMultiMma unrollOptsOnes cexAccOp).toOption.isSome = true ∧
    cexAccOp.verify = .ok () ∧
    cexAccOp.iteratorTypes = [.parallel, .reduction] ∧
    (cexAccUnroll.tiles.getD 0 dfltTile).offsets = [0, 0] ∧
    (cexAccUnroll.tiles.getD 1 dfltTile).offsets = [0, 1] ∧
    (cexAccUnroll.tiles.getD 0 dfltTile).accOffsets ≠
      (cexAccUnroll.tiles.getD 1 dfltTile).accOffsets := by
  refine ⟨by decide, rfl, rfl, by decide, by decide, by decide⟩

theorem idxOfExpr_some (l : List AffineExpr) (t : AffineExpr) :
    ∀ p, idxOfExpr l t = some p → p < l.length ∧ l.getD p (.cst 0) = t := by
  induction l with
  | nil =>
    intro p h
    exact Option.noConfusion h
  | cons e rest ih =>
    intro p h
    rw [show idxOfExpr (e :: rest) t =
      (if e = t then some 0 else (idxOfExpr rest t).map (· + 1)) from rfl] at h
    by_cases he : e = t
    · rw [if_pos he] at h
      obtain rfl : (0 : Nat) = p := Option.some.inj h
      exact ⟨by simp, by simpa using he⟩
    · rw [if_neg he] at h
      obtain ⟨q, hq, hqp⟩ := Option.map_eq_some'.mp h
      obtain ⟨hlt, hval⟩ := ih q hq
      obtain rfl : q + 1 = p := hqp
      exact ⟨by simp only [List.length_cons]; omega, by simpa using hval⟩

theorem sliceTy_getD (m : AffineMap) (target : List Int) (t : ShapedTy)
    (p j : Nat) (hp : p < m.results.length)
    (hres : m.results.getD p (.cst 0) = .dim j) :
    (sliceTy m target t).shape.getD p (.st 0) =
      .st (target.getD j 0) := by
  show ((m.results.map (permEval target)).map MSize.st ++
    t.shape.drop m.results.length).getD p (.st 0) = _
  rw [List.getD_append _ _ _ _ (by simpa using hp)]
  calc ((m.results.map (permEval target)).map MSize.st).getD p (MSize.st 0)
      = MSize.st ((m.results.map (permEval target)).getD p 0) :=
        List.getD_map _ _ _
    _ = MSize.st (permEval target (m.results.getD p (.cst 0))) :=
        congrArg MSize.st
          (List.getD_map m.results (AffineExpr.cst 0) (permEval target))
    _ = MSize.st (permEval target (AffineExpr.dim j)) := by rw [hres]
    _ = MSize.st (target.getD j 0) := rfl

theorem boundsGo_build (A R : List MSize) (m0 m2 : AffineMap)
    (g : Nat → MSize) :
    ∀ (its : List IterKind) (i : Nat),
      (∀ j, j < its.length →
        (its.getD j .parallel = .reduction →
          ∃ p, idxOfExpr m0.results (.dim (i + j)) = some p ∧
            A.getD p (.st 0) = g (i + j)) ∧
        (its.getD j .parallel = .parallel →
          ∃ p, idxOfExpr m2.results (.dim (i + j)) = some p ∧
            R.getD p (.st 0) = g (i + j))) →
      boundsGo A R m0 m2 i its =
        some ((List.range its.length).map (fun j => g (i + j))) := by
  intro its
  induction its with
  | nil =>
    intro i _
    rfl
  | cons it rest ih =>
    intro i hspec
    have hrec : boundsGo A R m0 m2 (i + 1) rest =
        some ((List.range rest.length).map (fun j => g (i + 1 + j))) := by
      refine ih (i + 1) ?_
      intro j hj
      obtain ⟨h1, h2⟩ := hspec (j + 1) (by simp only [List.length_cons]; omega)
      have hadd : i + (j + 1) = i + 1 + j := by omega
      constructor
      · intro hred
        rw [← hadd]
        exact h1 (by simpa using hred)
      · intro hpar
        rw [← hadd]
        exact h2 (by simpa using hpar)
    have htail : ((List.range (it :: rest).length).map (fun j => g (i + j))) =
        g i :: (List.range rest.length).map (fun j => g (i + 1 + j)) := by
      rw [List.length_cons, List.range_succ_eq_map]
      simp only [List.map_cons, List.map_map, Nat.add_zero]
      refine congrArg _ ?_
      refine List.map_eq_map_iff.mpr ?_
      intro x _
      show g (i + Nat.succ x) = g (i + 1 + x)
      exact congrArg g (by omega)
    rw [htail]
    obtain ⟨h1, h2⟩ := hspec 0 (by simp)
    rw [Nat.add_zero] at h1 h2
    cases it with
    | reduction =>
      obtain ⟨p, hp, hv⟩ := h1 rfl
      rw [show boundsGo A R m0 m2 i (.reduction :: rest) =
        (match boundsOne A R m0 m2 i .reduction,
            boundsGo A R m0 m2 (i + 1) rest with
         | some b, some bs => some (b :: bs)
         | _, _ => none) from rfl]
      rw [show boundsOne A R m0 m2 i .reduction =
        (idxOfExpr m0.results (.dim i)).map
          (fun q => A.getD q (.st 0)) from rfl]
      rw [hp, hrec]
      show some (A.getD p (.st 0) :: _) = _
      rw [show A.getD p (.st 0) = g i from hv]
    | parallel =>
      obtain ⟨p, hp, hv⟩ := h2 rfl
      rw [show boundsGo A R m0 m2 i (.parallel :: rest) =
        (match boundsOne A R m0 m2 i .parallel,
            boundsGo A R m0 m2 (i + 1) rest with
         | some b, some bs => some (b :: bs)
         | _, _ => none) from rfl]
      rw [show boundsOne A R m0 m2 i .parallel =
        (idxOfExpr m2.results (.dim i)).map
          (fun q => R.getD q (.st 0)) from rfl]
      rw [hp, hrec]
      show some (R.getD p (.st 0) :: _) = _
      rw [show R.getD p (.st 0) = g i from hv]

/-- C3 (amended): each per-tile operation produced by the unrolling
engine is a clone of the original that carries the original (unchanged)
indexing-map list, iterator-kind list and intrinsic kind, and its derived
iteration bounds equal the target native shape — not empty maps and empty
bounds as the claim states; see the counterexample. -/
theorem C3_per_tile_clone (options : UnrollOptions) (op : MultiMmaOp)
    (r : UnrollResult) (target : List Int)
    (h : unrollMultiMma options op = .ok r)
    (ht : options.nativeShape op = some target)
    (hlen : target.length = op.iteratorTypes.length) :
    ∀ j, j < r.tiles.length →
      (r.tiles.getD j dfltTile).newOp.indexingMaps = op.indexingMaps ∧
      (r.tiles.getD j dfltTile).newOp.iteratorTypes = op.iteratorTypes ∧
      (r.tiles.getD j dfltTile).newOp.kind = op.kind ∧
      (r.tiles.getD j dfltTile).newOp.getIterationBounds =
        some (target.map MSize.st) := by
  obtain ⟨boundsM, target', hb, hn, hT, htiles, -, -, -⟩ :=
    unroll_ok_inv options op r h
  have htt : target' = target := by
    rw [hn] at ht
    exact Option.some.inj ht
  subst target' 
  obtain ⟨-, -, hTok⟩ := foldl_unrollStep_ok op target
    (tileOffsetsEnum (boundsM.map MSize.toInt) target
      (getUnrollOrder op.iteratorTypes.length op options)) ([], [])
    (StateOK_init op target)
  intro j hj
  rw [htiles] at hj ⊢
  obtain ⟨-, -, -, -, hnew⟩ := hTok j hj
  rw [hnew]
  refine ⟨rfl, rfl, rfl, ?_⟩
  obtain ⟨-, horig⟩ := boundsGo_spec op.lhsTy.shape op.getResultType.shape
    (op.mapOf 0) (op.mapOf 2) op.iteratorTypes 0 boundsM hb
  have hbuild := boundsGo_build
    (sliceTy (op.mapOf 0) target op.lhsTy).shape
    (unrollTargetTy (op.mapOf 2) target op.accTy).shape
    (op.mapOf 0) (op.mapOf 2)
    (fun d => MSize.st (target.getD d 0)) op.iteratorTypes 0 ?_
  · have hfin : ((List.range op.iteratorTypes.length).map
        (fun j => MSize.st (target.getD (0 + j) 0))) = target.map MSize.st := by
      refine List.ext_getElem (by simp [hlen]) ?_
      intro n h1 h2
      simp only [List.getElem_map, List.getElem_range, Nat.zero_add]
      rw [List.getD_eq_getElem target 0 (by simpa using h2)]
    calc (clonedOpOf op target).getIterationBounds
        = some ((List.range op.iteratorTypes.length).map
            (fun j => MSize.st (target.getD (0 + j) 0))) := hbuild
      _ = some (target.map MSize.st) := by rw [hfin]
  · intro j hj
    obtain ⟨ho1, ho2⟩ := horig j hj
    constructor
    · intro hred
      obtain ⟨p, hp, -⟩ := ho1 hred
      refine ⟨p, hp, ?_⟩
      obtain ⟨hplt, hpval⟩ := idxOfExpr_some (op.mapOf 0).results _ p hp
      exact sliceTy_getD (op.mapOf 0) target op.lhsTy p (0 + j) hplt hpval
    · intro hpar
      obtain ⟨p, hp, -⟩ := ho2 hpar
      refine ⟨p, hp, ?_⟩
      obtain ⟨hplt, hpval⟩ := idxOfExpr_some (op.mapOf 2).results _ p hp
      exact sliceTy_getD (op.mapOf 2) target op.accTy p (0 + j) hplt hpval

/-- C3 witness: in the standard example unrolled toward native shape
(1, 1), every per-tile operation keeps the original maps and iterator
kinds and derives bounds (1, 1). -/
theorem C3_per_tile_clone_witness :
    (unrollMultiMma unrollOptsOnes stdMmaOp = .ok stdUnrollRes ∧
     unrollOptsOnes.nativeShape stdMmaOp = some [1, 1] ∧
     ([1, 1] : List Int).length = stdMmaOp.iteratorTypes.length ∧
     0 < stdUnrollRes.tiles.length) ∧
    ((stdUnrollRes.tiles.getD 0 dfltTile).newOp.indexingMaps =
      stdMmaOp.indexingMaps ∧
     (stdUnrollRes.tiles.getD 0 dfltTile).newOp.getIterationBounds =
      some ([(1 : Int), 1].map MSize.st)) := by
  refine ⟨⟨rfl, rfl, rfl, by decide⟩, ?_⟩
  obtain ⟨ha, -, -, hd⟩ := C3_per_tile_clone unrollOptsOnes stdMmaOp
    stdUnrollRes [1, 1] rfl rfl rfl 0 (by decide)
  exact ⟨ha, hd⟩

/-- C3 counterexample: the per-tile operations are not re-issued with an
empty indexing-map list and empty bounds — the first tile of the standard
unroll keeps the original three-entry map list and derives the non-empty
bounds (1, 1). -/
theorem C3_per_tile_clone_counterexample :
    (unrollMultiMma unrollOptsOnes stdMmaOp).toOption.isSome = true ∧
    (stdUnrollRes.tiles.getD 0 dfltTile).newOp.indexingMaps =
      stdMmaOp.indexingMaps ∧
    (stdUnrollRes.tiles.getD 0 dfltTile).newOp.indexingMaps ≠ [] ∧
    (stdUnrollRes.tiles.getD 0 dfltTile).newOp.iteratorTypes ≠ [] ∧
    (stdUnrollRes.tiles.getD 0 dfltTile).newOp.getIterationBounds =
      some [.st 1, .st 1] ∧
    (stdUnrollRes.tiles.getD 0 dfltTile).newOp.getIterationBounds ≠
      some [] := by
  refine ⟨by decide, by decide, by decide, by decide, by decide, by decide⟩

end IreeGpu
